import Mathlib

/-!
Shallow embedding of `Code/metro_map_planner.py` (class `MetroMapPlanner`):
the SAT encoder (variable registry, clause store, cardinality encoders,
cell/path/turn/popular constraint encoders, DIMACS emitter) and the
solution decoder.  Python's mutable `self` state is threaded explicitly as
an `EncState`; the unbounded `while` loop of the decoder is modelled with
an explicit fuel parameter (`none` = the loop did not finish within the
given fuel).  The memory address `id(variables)` used by the source to
namespace sequential-counter auxiliaries is not derivable in a shallow
embedding, so it enters `encode_at_most_k_simple` as an explicit `tag`
argument.
-/

set_option maxRecDepth 10000

/-- Direction of a metro edge: the keys `'L'`, `'R'`, `'U'`, `'D'` of the
`directions` dictionaries in the source. -/
inductive Dir : Type
  | L
  | R
  | U
  | D
deriving DecidableEq

/-- String form of a direction, as used in variable keys and in the decoded
output (`str(d)` on the Python side). -/
def dirStr : Dir → String
  | Dir.L => "L"
  | Dir.R => "R"
  | Dir.U => "U"
  | Dir.D => "D"

/-- Horizontal displacement of a direction (`dx` in the source dictionaries). -/
def dxOf : Dir → Int
  | Dir.L => -1
  | Dir.R => 1
  | Dir.U => 0
  | Dir.D => 0

/-- Vertical displacement of a direction (`dy` in the source dictionaries). -/
def dyOf : Dir → Int
  | Dir.L => 0
  | Dir.R => 0
  | Dir.U => -1
  | Dir.D => 1

/-- Iteration order of the direction dictionaries (Python dicts preserve
insertion order `L, R, U, D`; the decoder uses the same explicit list). -/
def dirOrder : List Dir := [Dir.L, Dir.R, Dir.U, Dir.D]

/-- The mutable encoder state of `MetroMapPlanner`: `var_counter`,
`var_map` (insertion-ordered dictionary, modelled as an association list
appended at the end on first sight of a key) and `clauses`. -/
structure EncState : Type where
  var_counter : Nat
  var_map : List (String × Nat)
  clauses : List (List Int)
deriving DecidableEq

/-- Lookup in the variable dictionary (first matching key, as in a Python
dict whose keys are unique). -/
def lookupVar : List (String × Nat) → String → Option Nat
  | [], _ => none
  | e :: rest, name => if e.1 = name then some e.2 else lookupVar rest name

/-- The problem data parsed from the `.city` file. -/
structure Planner : Type where
  scenario : Nat
  N : Nat
  M : Nat
  K : Nat
  J : Int
  P : Nat
  starts : List (Int × Int)
  ends : List (Int × Int)
  popular : List (Int × Int)
deriving DecidableEq

/-- Model of `"_".join(map(str, args))` in `get_var`. -/
def keyJoin (parts : List String) : String := String.intercalate ("_") parts

/-- Key of an occupancy variable `("C", x, y, k)`. -/
def keyC (x y : Int) (k : Nat) : String :=
  keyJoin ["C", toString x, toString y, toString k]

/-- Key of an edge (direction) variable `("D", x, y, k, d)`. -/
def keyD (x y : Int) (k : Nat) (d : Dir) : String :=
  keyJoin ["D", toString x, toString y, toString k, dirStr d]

/-- Key of a turn indicator variable `("T", x, y, k)`. -/
def keyT (x y : Int) (k : Nat) : String :=
  keyJoin ["T", toString x, toString y, toString k]

/-- Key of a sequential-counter auxiliary variable `("SEQ", id(variables), i, j)`;
the memory address `id(variables)` is the explicit `tag`. -/
def seqKey (tag i j : Nat) : String :=
  keyJoin ["SEQ", toString tag, toString i, toString j]

/-- `get_var`: look the joined key up in `var_map`, allocating the next
counter value on first sight.  Returns the id together with the new state. -/
def get_var (st : EncState) (name : String) : Nat × EncState :=
  match lookupVar st.var_map name with
  | some v => (v, st)
  | none =>
      let c := st.var_counter + 1
      (c, { st with var_counter := c, var_map := st.var_map ++ [(name, c)] })

/-- `add_clause`: append the literal list unless it is empty
(`if literals:` in the source). -/
def add_clause (st : EncState) (lits : List Int) : EncState :=
  if lits = [] then st else { st with clauses := st.clauses ++ [lits] }

/-- `encode_at_most_one`: pairwise clauses `[-variables[i], -variables[j]]`
for all `i < j`, in the source's loop order. -/
def encode_at_most_one : List Nat → EncState → EncState
  | [], st => st
  | v :: rest, st =>
      encode_at_most_one rest
        (rest.foldl (fun s (w : Nat) => add_clause s [-(v : Int), -(w : Int)]) st)

/-- `encode_exactly_one`: early return on the empty list, otherwise the
full positive disjunction followed by the pairwise at-most-one clauses. -/
def encode_exactly_one (vars : List Nat) (st : EncState) : EncState :=
  if vars = [] then st
  else encode_at_most_one vars (add_clause st (vars.map (fun (v : Nat) => (v : Int))))

/-- Model of `itertools.combinations(l, n)`: all length-`n` sublists in the
lexicographic-by-position order that `itertools` documents. -/
def combinations : Nat → List Nat → List (List Nat)
  | 0, _ => [[]]
  | _ + 1, [] => []
  | n + 1, x :: xs => (combinations n xs).map (fun s => x :: s) ++ combinations (n + 1) xs

/-- One iteration of the sequential-counter double loop of
`encode_at_most_k_simple` (source lines 236-263), at indices `i`, `j`.
`kt` is the bound `k` (a nonnegative int in this branch). -/
def encodeSeqCell (vars : List Nat) (kt tag i j : Nat) (st : EncState) : EncState :=
  let rs := get_var st (seqKey tag i j)
  let s := rs.1
  let st := rs.2
  if i = 0 then
    if j = 0 then add_clause st [(s : Int)] else add_clause st [-(s : Int)]
  else if j > i then add_clause st [-(s : Int)]
  else
    let x := vars.getD (i - 1) 0
    if j = 0 then
      let rp := get_var st (seqKey tag (i - 1) 0)
      let st := add_clause rp.2 [-(x : Int), -(s : Int)]
      let st := add_clause st [(x : Int), -(rp.1 : Int), (s : Int)]
      add_clause st [-(s : Int), (rp.1 : Int)]
    else if j ≤ kt then
      let rpj := get_var st (seqKey tag (i - 1) j)
      let rpj1 := get_var rpj.2 (seqKey tag (i - 1) (j - 1))
      let st := add_clause rpj1.2 [-(x : Int), -(rpj1.1 : Int), (s : Int)]
      let st := add_clause st [(x : Int), -(rpj.1 : Int), (s : Int)]
      let st := add_clause st [-(s : Int), (x : Int), (rpj.1 : Int)]
      add_clause st [-(s : Int), -(x : Int), (rpj1.1 : Int)]
    else st

/-- The sequential-counter branch of `encode_at_most_k_simple` (source
lines 234-269): the `i`/`j` double loop followed by the final
`valid_states` clause over `S(n, 0..k)`. -/
def encodeSeqCounter (vars : List Nat) (kt tag : Nat) (st : EncState) : EncState :=
  let n := vars.length
  let st1 := (List.range (n + 1)).foldl (fun s i =>
    (List.range (min i kt + 2)).foldl (fun s2 j => encodeSeqCell vars kt tag i j s2) s) st
  let r := (List.range (kt + 1)).foldl (fun a j =>
    let rv := get_var a.2 (seqKey tag n j)
    (a.1 ++ [(rv.1 : Int)], rv.2)) (([] : List Int), st1)
  add_clause r.2 r.1

/-- `encode_at_most_k_simple`: no clauses when `k >= len(variables)`, unit
negations when `k < 0`, direct enumeration of all `(k+1)`-subsets when
`k <= 3`, and the sequential counter otherwise.  `tag` stands for the
source's `id(variables)`. -/
def encode_at_most_k_simple (vars : List Nat) (k : Int) (tag : Nat) (st : EncState) : EncState :=
  if (vars.length : Int) ≤ k then st
  else if k < 0 then vars.foldl (fun s (v : Nat) => add_clause s [-(v : Int)]) st
  else if k ≤ 3 then
    (combinations (k.toNat + 1) vars).foldl
      (fun s t => add_clause s (t.map (fun (v : Nat) => -(v : Int)))) st
  else encodeSeqCounter vars k.toNat tag st

/-- Whether a cell lies within grid bounds: `0 <= x < N and 0 <= y < M`. -/
def inGrid (p : Planner) (x y : Int) : Prop :=
  0 ≤ x ∧ x < (p.N : Int) ∧ 0 ≤ y ∧ y < (p.M : Int)

instance (p : Planner) (x y : Int) : Decidable (inGrid p x y) := by
  unfold inGrid
  infer_instance

/-- `encode_cell_constraints` inner collection: the `K` occupancy variables
of one cell, in line order. -/
def collectCellVars (p : Planner) (x y : Int) (st : EncState) : List Nat × EncState :=
  (List.range p.K).foldl (fun a k =>
    let r := get_var a.2 (keyC x y k)
    (a.1 ++ [r.1], r.2)) (([] : List Nat), st)

/-- `encode_cell_constraints`: at-most-one line per cell. -/
def encode_cell_constraints (p : Planner) (st : EncState) : EncState :=
  (List.range p.N).foldl (fun s1 (x : Nat) =>
    (List.range p.M).foldl (fun s2 (y : Nat) =>
      let r := collectCellVars p (x : Int) (y : Int) s2
      encode_at_most_one r.1 r.2) s1) st

/-- The in-bound outgoing direction variables of a cell (source lines
107-111 and 136-140): directions whose forward neighbor is in the grid. -/
def collectOutDirs (p : Planner) (k : Nat) (x y : Int) (st : EncState) : List Nat × EncState :=
  dirOrder.foldl (fun a d =>
    if inGrid p (x + dxOf d) (y + dyOf d) then
      let r := get_var a.2 (keyD x y k d)
      (a.1 ++ [r.1], r.2)
    else a) (([] : List Nat), st)

/-- The in-bound incoming direction variables of a cell (source lines
115-118, 127-131 and 142-146): edge variables of the backward neighbor
pointing here. -/
def collectIncDirs (p : Planner) (k : Nat) (x y : Int) (st : EncState) : List Nat × EncState :=
  dirOrder.foldl (fun a d =>
    let px := x - dxOf d
    let py := y - dyOf d
    if inGrid p px py then
      let r := get_var a.2 (keyD px py k d)
      (a.1 ++ [r.1], r.2)
    else a) (([] : List Nat), st)

/-- The role branch and trailing flow implications of the per-cell loop of
`encode_path_constraints` (source lines 105-167), after the off-path
implications have run. -/
def pathCellRest (p : Planner) (k : Nat) (sx sy ex ey x y : Int) (cell_var : Nat)
    (st1 : EncState) : EncState :=
  let st2 :=
    if x = sx ∧ y = sy then
      let ro := collectOutDirs p k x y st1
      let s2 := encode_exactly_one ro.1 ro.2
      dirOrder.foldl (fun s d =>
        let px := x - dxOf d
        let py := y - dyOf d
        if inGrid p px py then
          let rv := get_var s (keyD px py k d)
          add_clause rv.2 [-(rv.1 : Int)]
        else s) s2
    else if x = ex ∧ y = ey then
      let s2 := dirOrder.foldl (fun s d =>
        let rv := get_var s (keyD x y k d)
        add_clause rv.2 [-(rv.1 : Int)]) st1
      let ri := collectIncDirs p k x y s2
      encode_exactly_one ri.1 ri.2
    else
      let ro := collectOutDirs p k x y st1
      let ri := collectIncDirs p k x y ro.2
      let s2 :=
        if ro.1 ≠ [] then
          encode_at_most_one ro.1
            (add_clause ri.2 ([-(cell_var : Int)] ++ ro.1.map (fun (v : Nat) => (v : Int))))
        else ri.2
      let s3 :=
        if ri.1 ≠ [] then
          encode_at_most_one ri.1
            (add_clause s2 ([-(cell_var : Int)] ++ ri.1.map (fun (v : Nat) => (v : Int))))
        else s2
      (ro.1 ++ ri.1).foldl (fun s (v : Nat) => add_clause s [(cell_var : Int), -(v : Int)]) s3
  dirOrder.foldl (fun s d =>
    let nx := x + dxOf d
    let ny := y + dyOf d
    if inGrid p nx ny then
      let rd := get_var s (keyD x y k d)
      let rn := get_var rd.2 (keyC nx ny k)
      add_clause rn.2 [-(rd.1 : Int), (rn.1 : Int)]
    else s) st2

/-- Body of the per-cell loop of `encode_path_constraints` (source lines
99-167): the occupancy variable, the off-path implications over all four
directions (which create the edge variable of every direction, in-bound
or not), then the role branch and flow implications (`pathCellRest`). -/
def pathCellBody (p : Planner) (k : Nat) (sx sy ex ey x y : Int) (st0 : EncState) : EncState :=
  let rc := get_var st0 (keyC x y k)
  let cell_var := rc.1
  let st1 := dirOrder.foldl (fun s d =>
    let rd := get_var s (keyD x y k d)
    add_clause rd.2 [-(rd.1 : Int), (cell_var : Int)]) rc.2
  pathCellRest p k sx sy ex ey x y cell_var st1

/-- Per-line body of `encode_path_constraints`: force start and end
occupancy, then run the per-cell loop over the whole grid. -/
def encodePathLine (p : Planner) (st : EncState) (k : Nat) : EncState :=
  let s := p.starts.getD k (0, 0)
  let e := p.ends.getD k (0, 0)
  let r1 := get_var st (keyC s.1 s.2 k)
  let st1 := add_clause r1.2 [(r1.1 : Int)]
  let r2 := get_var st1 (keyC e.1 e.2 k)
  let st2 := add_clause r2.2 [(r2.1 : Int)]
  (List.range p.N).foldl (fun s1 (x : Nat) =>
    (List.range p.M).foldl (fun s2 (y : Nat) =>
      pathCellBody p k s.1 s.2 e.1 e.2 (x : Int) (y : Int) s2) s1) st2

/-- `encode_path_constraints`: every line is a directed path from its
start to its end. -/
def encode_path_constraints (p : Planner) (st : EncState) : EncState :=
  (List.range p.K).foldl (encodePathLine p) st

/-- Inner double loop of `encode_turn_constraints` at one interior cell
(source lines 189-208): for each in-bound incoming direction and each
in-bound outgoing direction, link the pair to the turn indicator. -/
def turnPairBody (p : Planner) (k : Nat) (x y : Int) (tvar : Nat) (st : EncState) : EncState :=
  dirOrder.foldl (fun s din =>
    let px := x - dxOf din
    let py := y - dyOf din
    if inGrid p px py then
      let ri := get_var s (keyD px py k din)
      dirOrder.foldl (fun s2 dout =>
        if inGrid p (x + dxOf dout) (y + dyOf dout) then
          let ro := get_var s2 (keyD x y k dout)
          if din ≠ dout then
            add_clause ro.2 [-(ri.1 : Int), -(ro.1 : Int), (tvar : Int)]
          else
            add_clause ro.2 [-(ri.1 : Int), -(ro.1 : Int), -(tvar : Int)]
        else s2) ri.2
    else s) st

/-- Per-cell body of `encode_turn_constraints`: skip the line's start and
end cells, otherwise create the turn indicator, collect it, and emit the
pair clauses. -/
def turnCellBody (p : Planner) (k : Nat) (sx sy ex ey x y : Int)
    (acc : List Nat × EncState) : List Nat × EncState :=
  if (x = sx ∧ y = sy) ∨ (x = ex ∧ y = ey) then acc
  else
    let rt := get_var acc.2 (keyT x y k)
    (acc.1 ++ [rt.1], turnPairBody p k x y rt.1 rt.2)

/-- The turn-variable collection phase of one line of
`encode_turn_constraints` (source lines 176-208): the grid double loop of
`turnCellBody`, returning the collected turn variables and the state. -/
def turnLineFold (p : Planner) (k : Nat) (st : EncState) : List Nat × EncState :=
  let s := p.starts.getD k (0, 0)
  let e := p.ends.getD k (0, 0)
  (List.range p.N).foldl (fun a (x : Nat) =>
    (List.range p.M).foldl (fun a2 (y : Nat) =>
      turnCellBody p k s.1 s.2 e.1 e.2 (x : Int) (y : Int) a2) a) (([] : List Nat), st)

/-- Per-line body of `encode_turn_constraints` (source lines 171-212):
collect the line's turn indicators over the grid, then bound them by `J`
when `J >= 0` and the collection is nonempty. -/
def encodeTurnLine (p : Planner) (tag : Nat) (st : EncState) (k : Nat) : EncState :=
  let r := turnLineFold p k st
  if 0 ≤ p.J ∧ r.1 ≠ [] then encode_at_most_k_simple r.1 p.J tag r.2 else r.2

/-- `encode_turn_constraints`: at most `J` turns per line.  `tags k`
stands for the address `id(turn_vars)` of the per-line list. -/
def encode_turn_constraints (tags : Nat → Nat) (p : Planner) (st : EncState) : EncState :=
  (List.range p.K).foldl (fun s k => encodeTurnLine p (tags k) s k) st

/-- `encode_popular_constraints`: in scenario 2, each popular cell is
covered by at least one line. -/
def encode_popular_constraints (p : Planner) (st : EncState) : EncState :=
  if p.scenario ≠ 2 then st
  else p.popular.foldl (fun s c =>
    let r := (List.range p.K).foldl (fun a k =>
      let rv := get_var a.2 (keyC c.1 c.2 k)
      (a.1 ++ [(rv.1 : Int)], rv.2)) (([] : List Int), s)
    add_clause r.2 r.1) st

/-- `encode_to_sat` up to file output: reset the state, then run the four
constraint encoders in order. -/
def encode_to_sat (tags : Nat → Nat) (p : Planner) : EncState :=
  encode_popular_constraints p
    (encode_turn_constraints tags p
      (encode_path_constraints p
        (encode_cell_constraints p ⟨0, [], []⟩)))

/-- The DIMACS header emitted by `encode_to_sat`:
`p cnf {var_counter} {len(clauses)}`. -/
def dimacsHeader (st : EncState) : String :=
  "p cnf " ++ toString st.var_counter ++ " " ++ toString st.clauses.length

/-- Truth of a signed literal under an assignment of the positive
variables (`litSat A l` holds when a positive literal's variable is
asserted, or a nonpositive literal's variable is not). -/
def litSat (A : Nat → Bool) (l : Int) : Bool :=
  if 0 < l then A l.toNat else !(A (-l).toNat)

/-- Truth of a clause: some literal is satisfied. -/
def clauseSat (A : Nat → Bool) (c : List Int) : Bool :=
  c.any (litSat A)

/-- Number of variables of the list asserted true. -/
def countTrue (A : Nat → Bool) (vars : List Nat) : Nat :=
  (vars.filter A).length

/-- Claim-side rendering of the pairwise at-most-one clause list (the pure
clause sequence emitted by `encode_at_most_one`). -/
def amoClauses : List Nat → List (List Int)
  | [] => []
  | v :: rest => rest.map (fun (w : Nat) => [-(v : Int), -(w : Int)]) ++ amoClauses rest

/-- First occurrences of a key sequence, in order of first sight
(accumulator-passing form). -/
def firstOcc : List String → List String → List String
  | seen, [] => seen
  | seen, n :: ns => firstOcc (if n ∈ seen then seen else seen ++ [n]) ns

/-- A registry run: feed a sequence of keys through `get_var` starting
from the reset state of `encode_to_sat`. -/
def runRegistry (names : List String) : EncState :=
  names.foldl (fun st n => (get_var st n).2) ⟨0, [], []⟩

/-- Python `str.strip()`, modelled structurally on the character list
(drop whitespace from both ends). -/
def pyStrip (s : String) : String :=
  String.mk (((s.data.dropWhile Char.isWhitespace).reverse.dropWhile
    Char.isWhitespace).reverse)

/-- Helper for `tokensOf`: split a character list at whitespace runs,
accumulating the current (reversed) token. -/
def splitWsAux : List Char → List Char → List String
  | [], acc => if acc = [] then [] else [String.mk acc.reverse]
  | c :: cs, acc =>
      if c.isWhitespace then
        if acc = [] then splitWsAux cs [] else String.mk acc.reverse :: splitWsAux cs []
      else splitWsAux cs (c :: acc)

/-- Python `line.strip().split()`: whitespace-separated tokens with empty
pieces dropped. -/
def tokensOf (s : String) : List String :=
  splitWsAux s.data []

/-- Python `int(token)` on a well-formed optionally-signed decimal token
(on other tokens Python raises; this model yields `none` there). -/
def charsToNat : List Char → Nat → Option Nat
  | [], acc => some acc
  | c :: cs, acc =>
      if c.isDigit then charsToNat cs (acc * 10 + (c.toNat - 48)) else none

/-- Integer parse of a token, see `charsToNat`. -/
def tokToInt (t : String) : Option Int :=
  match t.data with
  | [] => none
  | c :: rest =>
      if c = Char.ofNat 45 then
        if rest = [] then none else (charsToNat rest 0).map (fun n => -(n : Int))
      else (charsToNat (c :: rest) 0).map (fun n => (n : Int))

/-- The token prefix before the terminating "0" of a DIMACS assignment
line (`if token == '0': break`). -/
def takeUntilZero : List String → List String
  | [] => []
  | t :: ts => if t = "0" then [] else t :: takeUntilZero ts

/-- Parse the assignment lines after the status line: every positive
integer token before each line's "0" sentinel.  (`int(token)` on a
non-integer token raises in Python; that error path is outside this model
and such tokens are read as 0, hence dropped.) -/
def parseAssignments (ls : List String) : List Int :=
  ls.foldl (fun acc line =>
    (takeUntilZero (tokensOf line)).foldl (fun a t =>
      let v := (tokToInt t).getD 0
      if 0 < v then a ++ [v] else a) acc) []

/-- The decoder's direction probe at one cell (source lines 333-346):
try `L`, `R`, `U`, `D` in order, looking each edge variable up through
`get_var` (which allocates on first sight), and stop at the first one
asserted true. -/
def findDir (assign : List Int) (k : Nat) (x y : Int) :
    List Dir → EncState → Option Dir × EncState
  | [], st => (none, st)
  | d :: ds, st =>
      let r := get_var st (keyD x y k d)
      if assign.contains ((r.1 : Nat) : Int) then (some d, r.2)
      else findDir assign k x y ds r.2

/-- The decoder's walk for one line (the `while (x, y) != (ex, ey)` loop),
with explicit fuel; `none` means the loop was still running when the fuel
ran out. -/
def walkAux (assign : List Int) (k : Nat) (ex ey : Int) :
    Nat → Int → Int → List Dir → EncState → Option (List Dir) × EncState
  | 0, _, _, _, st => (none, st)
  | fuel + 1, x, y, path, st =>
      if x = ex ∧ y = ey then (some path, st)
      else
        match findDir assign k x y dirOrder st with
        | (none, st') => (some path, st')
        | (some d, st') =>
            walkAux assign k ex ey fuel (x + dxOf d) (y + dyOf d) (path ++ [d]) st'

/-- The cells visited by the walk, in order (the last entry is the cell at
which the fuel ran out, the end was reached, or no direction was found). -/
def walkTrace (assign : List Int) (k : Nat) (ex ey : Int) :
    Nat → Int → Int → EncState → List (Int × Int)
  | 0, x, y, _ => [(x, y)]
  | fuel + 1, x, y, st =>
      if x = ex ∧ y = ey then [(x, y)]
      else
        match findDir assign k x y dirOrder st with
        | (none, _) => [(x, y)]
        | (some d, st') =>
            (x, y) :: walkTrace assign k ex ey fuel (x + dxOf d) (y + dyOf d) st'

/-- Termination of the decoder's walk from a cell: some finite fuel
suffices for the `while` loop to exit. -/
def walkHalts (assign : List Int) (k : Nat) (ex ey x y : Int) (st : EncState) : Prop :=
  ∃ fuel, (walkAux assign k ex ey fuel x y [] st).1 ≠ none

/-- The per-line reconstruction loop of `decode_sat_output` (source lines
325-351), over the list of line indices. -/
def decodePathsAux (assign : List Int) (p : Planner) (fuel : Nat) :
    List Nat → EncState → Option (List (List Dir)) × EncState
  | [], st => (some [], st)
  | k :: ks, st =>
      let s := p.starts.getD k (0, 0)
      let e := p.ends.getD k (0, 0)
      match walkAux assign k e.1 e.2 fuel s.1 s.2 [] st with
      | (none, st') => (none, st')
      | (some path, st') =>
          match decodePathsAux assign p fuel ks st' with
          | (none, st'') => (none, st'')
          | (some rest, st'') => (some (path :: rest), st'')

/-- Rendering of the decoded routes: one line per metro line,
`" ".join(path) + " 0\n"`. -/
def renderPaths (paths : List (List Dir)) : String :=
  String.join (paths.map (fun path => String.intercalate (" ") (path.map dirStr) ++ " 0\n"))

/-- `decode_sat_output`: the solver artifact is `none` when the
`.satoutput` file is absent, otherwise its list of lines.  The first
result component is the text written to the output file (`none` when a
walk exceeded the fuel, i.e. the Python loop had not yet terminated); the
second is the encoder state after decoding. -/
def decode_sat_output (fuel : Nat) (sat : Option (List String)) (p : Planner)
    (st : EncState) : Option String × EncState :=
  match sat with
  | none => (some ("0\n"), st)
  | some ls =>
      match ls with
      | [] => (some ("0\n"), st)
      | l0 :: rest =>
          if pyStrip l0 = "UNSAT" then (some ("0\n"), st)
          else
            let assign := parseAssignments rest
            match decodePathsAux assign p fuel (List.range p.K) st with
            | (none, st') => (none, st')
            | (some paths, st') => (some (renderPaths paths), st')

/-- The unsatisfiable-or-absent solver reports: an absent artifact, an
empty artifact, or a first line stripping to `UNSAT`. -/
def unsatReport (sat : Option (List String)) : Prop :=
  sat = none ∨ sat = some [] ∨ ∃ l0 rest, sat = some (l0 :: rest) ∧ pyStrip l0 = "UNSAT"

/-! ### State-extension machinery

Every encoder operation only appends: the clause list grows at the end,
the variable dictionary grows at the end, and the counter never
decreases.  `ExtendS` packages this; all reachability and frame lemmas
below factor through it. -/

/-- State `st'` extends state `st`: counter monotone, dictionary and
clause store append-only. -/
def ExtendS (st st' : EncState) : Prop :=
  st.var_counter ≤ st'.var_counter ∧
    (∃ mt, st'.var_map = st.var_map ++ mt) ∧
    (∃ ct, st'.clauses = st.clauses ++ ct)

theorem extendS_refl (st : EncState) : ExtendS st st :=
  ⟨le_refl _, ⟨[], (List.append_nil _).symm⟩, ⟨[], (List.append_nil _).symm⟩⟩

theorem extendS_trans {s t u : EncState} (h1 : ExtendS s t) (h2 : ExtendS t u) :
    ExtendS s u := by
  obtain ⟨hc1, ⟨m1, hm1⟩, ⟨c1, hcl1⟩⟩ := h1
  obtain ⟨hc2, ⟨m2, hm2⟩, ⟨c2, hcl2⟩⟩ := h2
  exact ⟨le_trans hc1 hc2, ⟨m1 ++ m2, by rw [hm2, hm1, List.append_assoc]⟩,
    ⟨c1 ++ c2, by rw [hcl2, hcl1, List.append_assoc]⟩⟩

theorem lookupVar_cons (e : String × Nat) (rest : List (String × Nat)) (name : String) :
    lookupVar (e :: rest) name = if e.1 = name then some e.2 else lookupVar rest name := rfl

theorem lookupVar_append_some {m m' : List (String × Nat)} {n : String} {v : Nat}
    (h : lookupVar m n = some v) : lookupVar (m ++ m') n = some v := by
  induction m with
  | nil => simp [lookupVar] at h
  | cons e rest ih =>
      rw [lookupVar_cons] at h
      rw [List.cons_append, lookupVar_cons]
      by_cases he : e.1 = n
      · rwa [if_pos he] at h ⊢
      · rw [if_neg he] at h ⊢
        exact ih h

theorem extendS_lookup {st st' : EncState} {n : String} {v : Nat}
    (h : ExtendS st st') (hv : lookupVar st.var_map n = some v) :
    lookupVar st'.var_map n = some v := by
  obtain ⟨-, ⟨mt, hm⟩, -⟩ := h
  rw [hm]
  exact lookupVar_append_some hv

theorem extendS_clause_mem {st st' : EncState} {c : List Int}
    (h : ExtendS st st') (hc : c ∈ st.clauses) : c ∈ st'.clauses := by
  obtain ⟨-, -, ⟨ct, hcl⟩⟩ := h
  rw [hcl]
  exact List.mem_append_left _ hc

theorem extendS_get_var (st : EncState) (n : String) : ExtendS st (get_var st n).2 := by
  unfold get_var
  cases h : lookupVar st.var_map n with
  | some v => exact extendS_refl st
  | none =>
      exact ⟨Nat.le_succ _, ⟨[(n, st.var_counter + 1)], rfl⟩, ⟨[], (List.append_nil _).symm⟩⟩

theorem extendS_add_clause (st : EncState) (lits : List Int) :
    ExtendS st (add_clause st lits) := by
  unfold add_clause
  split
  · exact extendS_refl st
  · exact ⟨le_refl _, ⟨[], (List.append_nil _).symm⟩, ⟨[lits], rfl⟩⟩

theorem extendS_foldl {α β : Type} (proj : β → EncState) (f : β → α → β)
    (h : ∀ b a, ExtendS (proj b) (proj (f b a))) :
    ∀ (l : List α) (b : β), ExtendS (proj b) (proj (List.foldl f b l)) := by
  intro l
  induction l with
  | nil => intro b; exact extendS_refl _
  | cons a rest ih => intro b; exact extendS_trans (h b a) (ih (f b a))

/-- Generic invariant-preservation through a left fold. -/
theorem foldl_inv {α β : Type} (P : β → Prop) (f : β → α → β) :
    ∀ (l : List α) (b : β), P b → (∀ a ∈ l, ∀ b', P b' → P (f b' a)) →
      P (List.foldl f b l) := by
  intro l
  induction l with
  | nil => intro b hb _; exact hb
  | cons a rest ih =>
      intro b hb hstep
      exact ih (f b a) (hstep a (List.mem_cons_self a rest) b hb)
        (fun x hx b' hb' => hstep x (List.mem_cons_of_mem a hx) b' hb')

/-- A predicate on states stable under extension. -/
def ExtStable (P : EncState → Prop) : Prop :=
  ∀ s s', ExtendS s s' → P s → P s'

theorem extStable_lookup (n : String) (v : Nat) :
    ExtStable (fun st => lookupVar st.var_map n = some v) :=
  fun _ _ h hv => extendS_lookup h hv

theorem extStable_clause (c : List Int) :
    ExtStable (fun st => c ∈ st.clauses) :=
  fun _ _ h hc => extendS_clause_mem h hc

theorem extStable_and {P Q : EncState → Prop} (hP : ExtStable P) (hQ : ExtStable Q) :
    ExtStable (fun st => P st ∧ Q st) :=
  fun s s' h hpq => ⟨hP s s' h hpq.1, hQ s s' h hpq.2⟩

/-- Establishing a stable property at one designated element of a fold:
if the property `C` holds at entry, is stable, every step extends the
state, and the step at `a` establishes the stable property `P`, then `P`
holds after the whole fold. -/
theorem foldl_establish {α β : Type} (proj : β → EncState) (f : β → α → β)
    (l : List α) (a : α) (P C : EncState → Prop)
    (ha : a ∈ l)
    (hext : ∀ b x, ExtendS (proj b) (proj (f b x)))
    (hC : ExtStable C) (hP : ExtStable P)
    (hestab : ∀ b, C (proj b) → P (proj (f b a))) :
    ∀ b, C (proj b) → P (proj (List.foldl f b l)) := by
  obtain ⟨s₁, s₂, rfl⟩ := List.append_of_mem ha
  intro b hb
  rw [List.foldl_append, List.foldl_cons]
  have hb1 : C (proj (List.foldl f b s₁)) :=
    hC _ _ (extendS_foldl proj f hext s₁ b) hb
  exact hP _ _ (extendS_foldl proj f hext s₂ _) (hestab _ hb1)

theorem lookupVar_append_none {m m' : List (String × Nat)} {n : String}
    (h : lookupVar m n = none) : lookupVar (m ++ m') n = lookupVar m' n := by
  induction m with
  | nil => rfl
  | cons e rest ih =>
      rw [lookupVar_cons] at h
      rw [List.cons_append, lookupVar_cons]
      by_cases he : e.1 = n
      · rw [if_pos he] at h; exact absurd h (by simp)
      · rw [if_neg he] at h ⊢
        exact ih h

/-- The key just passed through `get_var` is bound to the returned id. -/
theorem get_var_lookup_self (st : EncState) (n : String) :
    lookupVar (get_var st n).2.var_map n = some (get_var st n).1 := by
  unfold get_var
  cases h : lookupVar st.var_map n with
  | some v => simpa using h
  | none =>
      simp only []
      rw [lookupVar_append_none h, lookupVar_cons]
      simp

/-- A hit in the registry leaves the state untouched. -/
theorem get_var_hit {st : EncState} {n : String} {v : Nat}
    (h : lookupVar st.var_map n = some v) : get_var st n = (v, st) := by
  unfold get_var
  rw [h]

/-- The key is bound in the state (to some id). -/
def keyBound (st : EncState) (n : String) : Prop :=
  ∃ v, lookupVar st.var_map n = some v

theorem extStable_keyBound (n : String) : ExtStable (fun st => keyBound st n) :=
  fun _ _ h hv => hv.elim (fun v hv' => ⟨v, extendS_lookup h hv'⟩)

theorem keyBound_get_var (st : EncState) (n : String) : keyBound (get_var st n).2 n :=
  ⟨(get_var st n).1, get_var_lookup_self st n⟩

/-! ### Extension lemmas for every encoder operation -/

theorem extendS_encode_at_most_one (vars : List Nat) :
    ∀ st, ExtendS st (encode_at_most_one vars st) := by
  induction vars with
  | nil => intro st; exact extendS_refl st
  | cons v rest ih =>
      intro st
      show ExtendS st (encode_at_most_one rest _)
      exact extendS_trans
        (extendS_foldl id (fun s (w : Nat) => add_clause s [-(v : Int), -(w : Int)])
          (fun b a => extendS_add_clause b _) rest st)
        (ih _)

theorem extendS_encode_exactly_one (vars : List Nat) (st : EncState) :
    ExtendS st (encode_exactly_one vars st) := by
  unfold encode_exactly_one
  split
  · exact extendS_refl st
  · exact extendS_trans (extendS_add_clause _ _) (extendS_encode_at_most_one _ _)

theorem extendS_encodeSeqCell (vars : List Nat) (kt tag i j : Nat) (st : EncState) :
    ExtendS st (encodeSeqCell vars kt tag i j st) := by
  unfold encodeSeqCell
  dsimp only
  have h0 : ExtendS st (get_var st (seqKey tag i j)).2 := extendS_get_var _ _
  split
  · split
    · exact extendS_trans h0 (extendS_add_clause _ _)
    · exact extendS_trans h0 (extendS_add_clause _ _)
  · split
    · exact extendS_trans h0 (extendS_add_clause _ _)
    · split
      · exact extendS_trans h0 (extendS_trans (extendS_get_var _ _)
          (extendS_trans (extendS_add_clause _ _)
            (extendS_trans (extendS_add_clause _ _) (extendS_add_clause _ _))))
      · split
        · exact extendS_trans h0 (extendS_trans (extendS_get_var _ _)
            (extendS_trans (extendS_get_var _ _)
              (extendS_trans (extendS_add_clause _ _)
                (extendS_trans (extendS_add_clause _ _)
                  (extendS_trans (extendS_add_clause _ _) (extendS_add_clause _ _))))))
        · exact h0


/-! Target-directed composition helpers: each takes a proof that `st`
extends to the argument state and yields extension to one more step. -/

theorem extendS_add_clause_of {st s : EncState} (h : ExtendS st s) (lits : List Int) :
    ExtendS st (add_clause s lits) :=
  extendS_trans h (extendS_add_clause s lits)

theorem extendS_get_var_of {st s : EncState} (h : ExtendS st s) (n : String) :
    ExtendS st (get_var s n).2 :=
  extendS_trans h (extendS_get_var s n)

theorem extendS_foldl_of {α : Type} {st : EncState} {f : EncState → α → EncState}
    (hstep : ∀ b a, ExtendS b (f b a)) {b : EncState} (h : ExtendS st b) (l : List α) :
    ExtendS st (List.foldl f b l) :=
  extendS_trans h (extendS_foldl id f hstep l b)

theorem extendS_foldl_snd_of {α γ : Type} {st : EncState} {f : γ × EncState → α → γ × EncState}
    (hstep : ∀ b a, ExtendS b.2 (f b a).2) {b : γ × EncState} (h : ExtendS st b.2)
    (l : List α) : ExtendS st (List.foldl f b l).2 :=
  extendS_trans h (extendS_foldl Prod.snd f hstep l b)

theorem extendS_encode_at_most_one_of {st s : EncState} (h : ExtendS st s) (vars : List Nat) :
    ExtendS st (encode_at_most_one vars s) :=
  extendS_trans h (extendS_encode_at_most_one vars s)

theorem extendS_encode_exactly_one_of {st s : EncState} (h : ExtendS st s) (vars : List Nat) :
    ExtendS st (encode_exactly_one vars s) :=
  extendS_trans h (extendS_encode_exactly_one vars s)

theorem extendS_encodeSeqCounter (vars : List Nat) (kt tag : Nat) (st : EncState) :
    ExtendS st (encodeSeqCounter vars kt tag st) := by
  unfold encodeSeqCounter
  dsimp only
  refine extendS_add_clause_of ?_ _
  refine extendS_foldl_snd_of ?_ ?_ _
  · intro b a
    exact extendS_get_var b.2 _
  · refine extendS_foldl_of (fun b a => ?_) (extendS_refl st) _
    exact extendS_foldl_of (fun b2 a2 => extendS_encodeSeqCell vars kt tag a a2 b2)
      (extendS_refl b) _

theorem extendS_encode_at_most_k_simple (vars : List Nat) (k : Int) (tag : Nat)
    (st : EncState) : ExtendS st (encode_at_most_k_simple vars k tag st) := by
  unfold encode_at_most_k_simple
  split
  · exact extendS_refl st
  · split
    · exact extendS_foldl_of (fun b a => extendS_add_clause b _) (extendS_refl st) _
    · split
      · exact extendS_foldl_of (fun b a => extendS_add_clause b _) (extendS_refl st) _
      · exact extendS_encodeSeqCounter _ _ _ st

theorem extendS_collectCellVars (p : Planner) (x y : Int) (st : EncState) :
    ExtendS st (collectCellVars p x y st).2 := by
  unfold collectCellVars
  refine extendS_foldl_snd_of ?_ ?_ _
  · intro b a
    exact extendS_get_var b.2 _
  · exact extendS_refl st

theorem extendS_collectOutDirs (p : Planner) (k : Nat) (x y : Int) (st : EncState) :
    ExtendS st (collectOutDirs p k x y st).2 := by
  unfold collectOutDirs
  refine extendS_foldl_snd_of ?_ ?_ _
  · intro b a
    dsimp only
    split
    · exact extendS_get_var b.2 _
    · exact extendS_refl _
  · exact extendS_refl st

theorem extendS_collectIncDirs (p : Planner) (k : Nat) (x y : Int) (st : EncState) :
    ExtendS st (collectIncDirs p k x y st).2 := by
  unfold collectIncDirs
  refine extendS_foldl_snd_of ?_ ?_ _
  · intro b a
    dsimp only
    split
    · exact extendS_get_var b.2 _
    · exact extendS_refl _
  · exact extendS_refl st

theorem extendS_pathCellRest (p : Planner) (k : Nat) (sx sy ex ey x y : Int)
    (cell_var : Nat) (st : EncState) :
    ExtendS st (pathCellRest p k sx sy ex ey x y cell_var st) := by
  unfold pathCellRest
  dsimp only
  refine extendS_foldl_of (fun b a => ?_) ?_ _
  · dsimp only
    split
    · exact extendS_add_clause_of (extendS_get_var_of (extendS_get_var_of (extendS_refl b) _) _) _
    · exact extendS_refl b
  · split
    · refine extendS_foldl_of (fun b a => ?_) ?_ _
      · dsimp only
        split
        · exact extendS_add_clause_of (extendS_get_var_of (extendS_refl b) _) _
        · exact extendS_refl b
      · refine extendS_encode_exactly_one_of ?_ _
        refine extendS_trans ?_ (extendS_collectOutDirs _ _ _ _ _)
        exact extendS_refl st
    · split
      · refine extendS_encode_exactly_one_of ?_ _
        refine extendS_trans ?_ (extendS_collectIncDirs _ _ _ _ _)
        refine extendS_foldl_of
          (fun b a => extendS_add_clause_of (extendS_get_var_of (extendS_refl b) _) _)
          (extendS_refl st) _
      · refine extendS_foldl_of (fun b a => extendS_add_clause_of (extendS_refl b) _) ?_ _
        split
        · refine extendS_encode_at_most_one_of (extendS_add_clause_of ?_ _) _
          split
          · refine extendS_encode_at_most_one_of (extendS_add_clause_of ?_ _) _
            refine extendS_trans ?_ (extendS_collectIncDirs _ _ _ _ _)
            refine extendS_trans ?_ (extendS_collectOutDirs _ _ _ _ _)
            exact extendS_refl st
          · refine extendS_trans ?_ (extendS_collectIncDirs _ _ _ _ _)
            refine extendS_trans ?_ (extendS_collectOutDirs _ _ _ _ _)
            exact extendS_refl st
        · split
          · refine extendS_encode_at_most_one_of (extendS_add_clause_of ?_ _) _
            refine extendS_trans ?_ (extendS_collectIncDirs _ _ _ _ _)
            refine extendS_trans ?_ (extendS_collectOutDirs _ _ _ _ _)
            exact extendS_refl st
          · refine extendS_trans ?_ (extendS_collectIncDirs _ _ _ _ _)
            refine extendS_trans ?_ (extendS_collectOutDirs _ _ _ _ _)
            exact extendS_refl st

theorem extendS_pathCellBody (p : Planner) (k : Nat) (sx sy ex ey x y : Int)
    (st : EncState) : ExtendS st (pathCellBody p k sx sy ex ey x y st) := by
  unfold pathCellBody
  dsimp only
  refine extendS_trans ?_ (extendS_pathCellRest _ _ _ _ _ _ _ _ _ _)
  refine extendS_foldl_of
    (fun b a => extendS_add_clause_of (extendS_get_var_of (extendS_refl b) _) _)
    (extendS_get_var_of (extendS_refl st) _) _

theorem extendS_encodePathLine (p : Planner) (st : EncState) (k : Nat) :
    ExtendS st (encodePathLine p st k) := by
  unfold encodePathLine
  dsimp only
  refine extendS_foldl_of (fun b a => ?_) ?_ _
  · exact extendS_foldl_of (fun b2 a2 => extendS_pathCellBody p k _ _ _ _ _ _ b2)
      (extendS_refl b) _
  · exact extendS_add_clause_of (extendS_get_var_of
      (extendS_add_clause_of (extendS_get_var_of (extendS_refl st) _) _) _) _

theorem extendS_encode_path_constraints (p : Planner) (st : EncState) :
    ExtendS st (encode_path_constraints p st) := by
  unfold encode_path_constraints
  exact extendS_foldl_of (fun b a => extendS_encodePathLine p b a) (extendS_refl st) _

theorem extendS_turnPairBody (p : Planner) (k : Nat) (x y : Int) (tvar : Nat)
    (st : EncState) : ExtendS st (turnPairBody p k x y tvar st) := by
  unfold turnPairBody
  refine extendS_foldl_of (fun b a => ?_) (extendS_refl st) _
  dsimp only
  split
  · refine extendS_foldl_of (fun b2 a2 => ?_) (extendS_get_var_of (extendS_refl b) _) _
    dsimp only
    split
    · split
      · exact extendS_add_clause_of (extendS_get_var_of (extendS_refl b2) _) _
      · exact extendS_add_clause_of (extendS_get_var_of (extendS_refl b2) _) _
    · exact extendS_refl b2
  · exact extendS_refl b

theorem extendS_turnCellBody (p : Planner) (k : Nat) (sx sy ex ey x y : Int)
    (acc : List Nat × EncState) :
    ExtendS acc.2 (turnCellBody p k sx sy ex ey x y acc).2 := by
  unfold turnCellBody
  split
  · exact extendS_refl _
  · exact extendS_trans (extendS_get_var acc.2 _) (extendS_turnPairBody _ _ _ _ _ _)

theorem extendS_turnLineFold (p : Planner) (k : Nat) (st : EncState) :
    ExtendS st (turnLineFold p k st).2 := by
  unfold turnLineFold
  dsimp only
  refine extendS_foldl_snd_of ?_ ?_ _
  · intro b a
    refine extendS_foldl_snd_of ?_ ?_ _
    · intro b2 a2
      exact extendS_turnCellBody p k _ _ _ _ _ _ b2
    · exact extendS_refl b.2
  · exact extendS_refl st

theorem extendS_encodeTurnLine (p : Planner) (tag : Nat) (st : EncState) (k : Nat) :
    ExtendS st (encodeTurnLine p tag st k) := by
  unfold encodeTurnLine
  dsimp only
  split
  · exact extendS_trans (extendS_turnLineFold p k st)
      (extendS_encode_at_most_k_simple _ _ _ _)
  · exact extendS_turnLineFold p k st

theorem extendS_encode_turn_constraints (tags : Nat → Nat) (p : Planner) (st : EncState) :
    ExtendS st (encode_turn_constraints tags p st) := by
  unfold encode_turn_constraints
  exact extendS_foldl_of (fun b a => extendS_encodeTurnLine p (tags a) b a)
    (extendS_refl st) _


/-! ### Clause-list computations for the cardinality encoders -/

/-- A fold of `add_clause` over generated nonempty clauses appends exactly
the generated clause list. -/
theorem foldl_add_clauses {α : Type} (g : α → List Int) (l : List α) (st : EncState)
    (h : ∀ a ∈ l, g a ≠ []) :
    List.foldl (fun s a => add_clause s (g a)) st l =
      { st with clauses := st.clauses ++ l.map g } := by
  induction l generalizing st with
  | nil => simp
  | cons a rest ih =>
      rw [List.foldl_cons]
      have ha : add_clause st (g a) = { st with clauses := st.clauses ++ [g a] } := by
        unfold add_clause
        rw [if_neg (h a (List.mem_cons_self a rest))]
      rw [ha, ih _ (fun x hx => h x (List.mem_cons_of_mem a hx))]
      simp

theorem mem_combinations {n : Nat} {l s : List Nat} :
    s ∈ combinations n l ↔ List.Sublist s l ∧ s.length = n := by
  induction l generalizing n s with
  | nil =>
      cases n with
      | zero =>
          simp only [combinations, List.mem_singleton]
          constructor
          · rintro rfl; exact ⟨List.Sublist.refl _, rfl⟩
          · rintro ⟨hs, hl⟩
            exact List.eq_nil_of_length_eq_zero hl
      | succ m =>
          simp only [combinations, List.not_mem_nil, false_iff, not_and]
          intro hs
          rw [List.sublist_nil.mp hs]
          simp
  | cons x xs ih =>
      cases n with
      | zero =>
          simp only [combinations, List.mem_singleton]
          constructor
          · rintro rfl; exact ⟨List.nil_sublist _, rfl⟩
          · rintro ⟨-, hl⟩
            exact List.eq_nil_of_length_eq_zero hl
      | succ m =>
          simp only [combinations, List.mem_append, List.mem_map]
          constructor
          · rintro (⟨t, ht, rfl⟩ | hmem)
            · obtain ⟨h1, h2⟩ := ih.mp ht
              exact ⟨List.Sublist.cons₂ x h1, by simp [h2]⟩
            · obtain ⟨h1, h2⟩ := ih.mp hmem
              exact ⟨List.Sublist.cons x h1, h2⟩
          · rintro ⟨hs, hl⟩
            cases s with
            | nil => simp at hl
            | cons a t =>
                rcases List.cons_sublist_cons'.mp hs with h1 | ⟨rfl, h2⟩
                · exact Or.inr (ih.mpr ⟨h1, hl⟩)
                · exact Or.inl ⟨t, ih.mpr ⟨h2, by simpa using hl⟩, rfl⟩

theorem combinations_one (l : List Nat) : combinations 1 l = l.map (fun x => [x]) := by
  induction l with
  | nil => rfl
  | cons x xs ih => simp [combinations, ih]

theorem amoClauses_eq_combinations (vars : List Nat) :
    amoClauses vars =
      (combinations 2 vars).map (fun s => s.map (fun (v : Nat) => -(v : Int))) := by
  induction vars with
  | nil => rfl
  | cons v rest ih =>
      show rest.map (fun (w : Nat) => [-(v : Int), -(w : Int)]) ++ amoClauses rest = _
      rw [ih]
      show _ = ((combinations 1 rest).map (fun s => v :: s) ++ combinations 2 rest).map _
      rw [List.map_append, combinations_one, List.map_map, List.map_map]
      rfl

theorem litSat_neg_coe (A : Nat → Bool) (v : Nat) : litSat A (-(v : Int)) = !(A v) := by
  unfold litSat
  rw [if_neg (by omega)]
  congr 2
  omega

theorem clauseSat_negmap (A : Nat → Bool) (s : List Nat) :
    clauseSat A (s.map (fun (v : Nat) => -(v : Int))) = true ↔ ∃ v ∈ s, A v = false := by
  unfold clauseSat
  rw [List.any_eq_true]
  constructor
  · rintro ⟨l, hl, hsat⟩
    obtain ⟨v, hv, rfl⟩ := List.mem_map.mp hl
    rw [litSat_neg_coe] at hsat
    exact ⟨v, hv, by simpa using hsat⟩
  · rintro ⟨v, hv, hfalse⟩
    refine ⟨-(v : Int), List.mem_map_of_mem _ hv, ?_⟩
    rw [litSat_neg_coe, hfalse]
    rfl

theorem combinations_sat_iff (A : Nat → Bool) (vars : List Nat) (m : Nat) :
    (∀ s ∈ combinations (m + 1) vars, ∃ v ∈ s, A v = false) ↔ countTrue A vars ≤ m := by
  constructor
  · intro h
    by_contra hc
    push_neg at hc
    set t := (vars.filter A).take (m + 1) with ht
    have hsub : List.Sublist t vars := (List.take_sublist _ _).trans (List.filter_sublist _)
    have hlen : t.length = m + 1 := by
      rw [ht, List.length_take]
      have hcc : m + 1 ≤ (vars.filter A).length := hc
      omega
    obtain ⟨v, hv, hfalse⟩ := h t (mem_combinations.mpr ⟨hsub, hlen⟩)
    have htrue : A v = true := List.of_mem_filter (((List.take_sublist _ _).subset) hv)
    rw [htrue] at hfalse
    exact absurd hfalse (by simp)
  · intro hcount s hs
    obtain ⟨hsub, hlen⟩ := mem_combinations.mp hs
    by_contra hall
    push_neg at hall
    have heq : s.filter A = s :=
      List.filter_eq_self.mpr (fun v hv => by
        cases hA : A v
        · exact absurd hA (hall v hv)
        · rfl)
    have hle : s.length ≤ countTrue A vars := by
      calc s.length = (s.filter A).length := by rw [heq]
        _ ≤ (vars.filter A).length := (hsub.filter A).length_le
    omega

/-- The clause list of the direct-enumeration branch: one all-negated
clause per size-`n` subset of `vars`. -/
def negSubsets (n : Nat) (vars : List Nat) : List (List Int) :=
  (combinations n vars).map (fun s => s.map (fun (v : Nat) => -(v : Int)))

/-- C4: the at-most-k encoder's magnitude policy.  For `k >= |vars|`
nothing is emitted; for `k < 0` one unit negation per variable; for
`0 <= k <= 3` exactly the clause negating each size-(k+1) subset is
emitted (with an assignment satisfying those clauses iff at most `k` of
the variables are true — in particular `k = 0` forces all false and
`k = |vars| - 1` rejects exactly the all-true assignments among others);
for `k > 3` the sequential-counter construction is used. -/
theorem c4_at_most_k_policy (vars : List Nat) (k : Int) (tag : Nat) (st : EncState) :
    ((vars.length : Int) ≤ k → encode_at_most_k_simple vars k tag st = st) ∧
    (k < 0 → encode_at_most_k_simple vars k tag st =
      { st with clauses := st.clauses ++ vars.map (fun (v : Nat) => [-(v : Int)]) }) ∧
    (0 ≤ k → k ≤ 3 → k < (vars.length : Int) →
      encode_at_most_k_simple vars k tag st =
        { st with clauses := st.clauses ++ negSubsets (k.toNat + 1) vars } ∧
      (∀ c, c ∈ negSubsets (k.toNat + 1) vars ↔
        ∃ s, List.Sublist s vars ∧ (s.length : Int) = k + 1 ∧
          c = s.map (fun (v : Nat) => -(v : Int))) ∧
      (∀ A : Nat → Bool,
        (∀ c ∈ negSubsets (k.toNat + 1) vars, clauseSat A c = true) ↔
          (countTrue A vars : Int) ≤ k)) ∧
    (3 < k → k < (vars.length : Int) →
      encode_at_most_k_simple vars k tag st = encodeSeqCounter vars k.toNat tag st) := by
  refine ⟨?_, ?_, ?_, ?_⟩
  · intro h
    unfold encode_at_most_k_simple
    rw [if_pos h]
  · intro h
    unfold encode_at_most_k_simple
    rw [if_neg (by omega), if_pos h]
    exact foldl_add_clauses (fun (v : Nat) => [-(v : Int)]) vars st (by intro a _; simp)
  · intro h0 h3 hlt
    have hb : encode_at_most_k_simple vars k tag st = (combinations (k.toNat + 1) vars).foldl
        (fun s t => add_clause s (t.map (fun (v : Nat) => -(v : Int)))) st := by
      unfold encode_at_most_k_simple
      rw [if_neg (by omega), if_neg (by omega), if_pos h3]
    refine ⟨?_, ?_, ?_⟩
    · rw [hb]
      refine foldl_add_clauses _ _ st ?_
      intro a ha
      obtain ⟨-, hlen⟩ := mem_combinations.mp ha
      intro hcontra
      have hl0 := congrArg List.length hcontra
      simp [hlen] at hl0
    · intro c
      rw [negSubsets, List.mem_map]
      constructor
      · rintro ⟨s, hs, rfl⟩
        obtain ⟨h1, h2⟩ := mem_combinations.mp hs
        exact ⟨s, h1, by omega, rfl⟩
      · rintro ⟨s, h1, h2, rfl⟩
        exact ⟨s, mem_combinations.mpr ⟨h1, by omega⟩, rfl⟩
    · intro A
      constructor
      · intro hall
        have hn : countTrue A vars ≤ k.toNat :=
          (combinations_sat_iff A vars k.toNat).mp
            (fun s hs => (clauseSat_negmap A s).mp
              (hall _ (by rw [negSubsets]; exact List.mem_map_of_mem _ hs)))
        omega
      · intro hc c hc2
        rw [negSubsets] at hc2
        obtain ⟨s, hs, rfl⟩ := List.mem_map.mp hc2
        exact (clauseSat_negmap A s).mpr
          ((combinations_sat_iff A vars k.toNat).mpr (by omega) s hs)
  · intro h3 hlt
    unfold encode_at_most_k_simple
    rw [if_neg (by omega), if_neg (by omega), if_neg (by omega)]

/-- C4 witness: at a concrete call with `k = 5 >= |vars| = 3` the encoder
emits nothing and leaves the state unchanged. -/
theorem c4_witness : encode_at_most_k_simple [1, 2, 3] 5 0 ⟨3, [], []⟩ = ⟨3, [], []⟩ :=
  (c4_at_most_k_policy [1, 2, 3] 5 0 ⟨3, [], []⟩).1 (by decide)

/-- The at-most-one encoder appends exactly the pairwise clause list. -/
theorem encode_at_most_one_clauses (vars : List Nat) (st : EncState) :
    encode_at_most_one vars st = { st with clauses := st.clauses ++ amoClauses vars } := by
  induction vars generalizing st with
  | nil => simp [encode_at_most_one, amoClauses]
  | cons v rest ih =>
      show encode_at_most_one rest _ = _
      rw [foldl_add_clauses (fun (w : Nat) => [-(v : Int), -(w : Int)]) rest st
        (by intro a _; simp), ih]
      show _ = { st with clauses := st.clauses ++
        (rest.map (fun (w : Nat) => [-(v : Int), -(w : Int)]) ++ amoClauses rest) }
      simp [List.append_assoc]

/-- C5: the at-most-one encoder emits exactly the pairwise clause
`(not A or not B)` for every unordered pair of distinct variables of its
(duplicate-free) input, and an assignment satisfies all these clauses iff
at most one of the variables is true. -/
theorem c5_at_most_one_pairwise (vars : List Nat) (st : EncState) (hnd : vars.Nodup) :
    (encode_at_most_one vars st = { st with clauses := st.clauses ++ amoClauses vars }) ∧
    (∀ c, c ∈ amoClauses vars ↔
      ∃ a b, List.Sublist [a, b] vars ∧ c = [-(a : Int), -(b : Int)]) ∧
    (∀ A : Nat → Bool, (∀ c ∈ amoClauses vars, clauseSat A c = true) ↔
      countTrue A vars ≤ 1) := by
  refine ⟨encode_at_most_one_clauses vars st, ?_, ?_⟩
  · intro c
    rw [amoClauses_eq_combinations, List.mem_map]
    constructor
    · rintro ⟨s, hs, rfl⟩
      obtain ⟨h1, h2⟩ := mem_combinations.mp hs
      obtain ⟨a, b, rfl⟩ : ∃ a b, s = [a, b] := by
        rcases s with - | ⟨a, - | ⟨b, - | ⟨c2, t⟩⟩⟩
        · simp at h2
        · simp at h2
        · exact ⟨a, b, rfl⟩
        · simp only [List.length_cons] at h2
          omega
      exact ⟨a, b, h1, rfl⟩
    · rintro ⟨a, b, h1, rfl⟩
      exact ⟨[a, b], mem_combinations.mpr ⟨h1, rfl⟩, rfl⟩
  · intro A
    rw [amoClauses_eq_combinations]
    constructor
    · intro hall
      exact (combinations_sat_iff A vars 1).mp
        (fun s hs => (clauseSat_negmap A s).mp (hall _ (List.mem_map_of_mem _ hs)))
    · intro hc c hcmem
      obtain ⟨s, hs, rfl⟩ := List.mem_map.mp hcmem
      exact (clauseSat_negmap A s).mpr ((combinations_sat_iff A vars 1).mpr hc s hs)

/-- C5 witness: the pairwise encoder at a concrete two-variable set. -/
theorem c5_witness :
    encode_at_most_one [1, 2] ⟨2, [], []⟩ = ⟨2, [], [] ++ amoClauses [1, 2]⟩ :=
  (c5_at_most_one_pairwise [1, 2] ⟨2, [], []⟩ (by decide)).1

/-- C6 (amended): the exactly-one encoder on the empty variable list is a
silently accepted no-op: it returns the state unchanged, emitting no
clause and raising no error. -/
theorem c6_exactly_one_empty_noop (st : EncState) : encode_exactly_one [] st = st := rfl

/-- C6 counterexample: at the concrete empty-set call the encoder silently
returns the unchanged state, refuting that such a call is surfaced as an
error rather than silently accepted. -/
theorem c6_counterexample : encode_exactly_one [] ⟨0, [], []⟩ = ⟨0, [], []⟩ := rfl

/-- C7: whenever the solver artifact is absent, empty, or reports
unsatisfiability, the decoder's whole output is exactly the sentinel line
`0` (and the state is untouched), for every problem instance (any line
count `K ≥ 0`) and any fuel. -/
theorem c7_decoder_sentinel (fuel : Nat) (sat : Option (List String)) (p : Planner)
    (st : EncState) (h : unsatReport sat) :
    (decode_sat_output fuel sat p st).1 = some ("0\n") ∧
      (decode_sat_output fuel sat p st).2 = st := by
  rcases h with rfl | rfl | ⟨l0, rest, rfl, htrim⟩
  · exact ⟨rfl, rfl⟩
  · exact ⟨rfl, rfl⟩
  · simp only [decode_sat_output]
    rw [if_pos htrim]
    exact ⟨rfl, rfl⟩

/-- C7 witness: a concrete `UNSAT` report yields exactly the sentinel. -/
theorem c7_witness :
    (decode_sat_output 0 (some ["UNSAT"]) ⟨1, 1, 1, 1, 0, 0, [], [], []⟩ ⟨0, [], []⟩).1 =
      some ("0\n") :=
  (c7_decoder_sentinel 0 (some ["UNSAT"]) ⟨1, 1, 1, 1, 0, 0, [], [], []⟩ ⟨0, [], []⟩
    (Or.inr (Or.inr ⟨"UNSAT", [], rfl, by decide⟩))).1

/-! ### The variable registry contract (C3) -/

/-- Registry well-formedness: the ids stored in the dictionary are, in
insertion order, exactly `1, 2, ..., var_counter`. -/
def RegWF (st : EncState) : Prop :=
  st.var_map.map Prod.snd = List.range' 1 st.var_counter

theorem regWF_get_var {st : EncState} (h : RegWF st) (n : String) :
    RegWF (get_var st n).2 := by
  unfold get_var
  cases hl : lookupVar st.var_map n with
  | some v => exact h
  | none =>
      unfold RegWF at h ⊢
      simp only [List.map_append, h, List.map_cons, List.map_nil]
      rw [List.range'_1_concat]
      simp [Nat.add_comm]

theorem regWF_foldl_get_var (names : List String) {st : EncState} (h : RegWF st) :
    RegWF (names.foldl (fun s n => (get_var s n).2) st) := by
  induction names generalizing st with
  | nil => exact h
  | cons n rest ih => exact ih (regWF_get_var h n)

theorem lookupVar_mem {m : List (String × Nat)} {n : String} {v : Nat}
    (h : lookupVar m n = some v) : (n, v) ∈ m := by
  induction m with
  | nil => simp [lookupVar] at h
  | cons e rest ih =>
      rw [lookupVar_cons] at h
      by_cases he : e.1 = n
      · rw [if_pos he] at h
        obtain ⟨e1, e2⟩ := e
        simp only [Option.some.injEq] at h
        simp only at he
        subst he
        subst h
        exact List.mem_cons_self _ _
      · rw [if_neg he] at h
        exact List.mem_cons_of_mem e (ih h)

theorem snd_nodup_inj {m : List (String × Nat)} (h : (m.map Prod.snd).Nodup)
    {n1 n2 : String} {v : Nat} (h1 : (n1, v) ∈ m) (h2 : (n2, v) ∈ m) : n1 = n2 := by
  induction m with
  | nil => simp at h1
  | cons e rest ih =>
      simp only [List.map_cons, List.nodup_cons] at h
      rcases List.mem_cons.mp h1 with he1 | hm1
      · rcases List.mem_cons.mp h2 with he2 | hm2
        · have he3 : (n1, v) = (n2, v) := he1.trans he2.symm
          exact congrArg Prod.fst he3
        · rw [← he1] at h
          exact absurd (List.mem_map_of_mem Prod.snd hm2) (by simpa using h.1)
      · rcases List.mem_cons.mp h2 with he2 | hm2
        · rw [← he2] at h
          exact absurd (List.mem_map_of_mem Prod.snd hm1) (by simpa using h.1)
        · exact ih h.2 hm1 hm2

theorem lookupVar_ne_none_of_mem_keys {m : List (String × Nat)} {n : String}
    (h : n ∈ m.map Prod.fst) : lookupVar m n ≠ none := by
  induction m with
  | nil => simp at h
  | cons e rest ih =>
      rw [lookupVar_cons]
      rcases List.mem_cons.mp h with he | hm
      · rw [if_pos he.symm]
        simp
      · by_cases he2 : e.1 = n
        · rw [if_pos he2]
          simp
        · rw [if_neg he2]
          exact ih hm

/-- One `get_var` step appends the key to the key list exactly when it is
new. -/
theorem get_var_keys (st : EncState) (n : String) :
    (get_var st n).2.var_map.map Prod.fst =
      if n ∈ st.var_map.map Prod.fst then st.var_map.map Prod.fst
      else st.var_map.map Prod.fst ++ [n] := by
  unfold get_var
  cases hl : lookupVar st.var_map n with
  | some v =>
      rw [if_pos (List.mem_map_of_mem Prod.fst (lookupVar_mem hl))]
  | none =>
      rw [if_neg (fun hmem => lookupVar_ne_none_of_mem_keys hmem hl)]
      simp

/-- The keys of the registry after a run are the first occurrences of the
processed key sequence, appended to the keys already present. -/
theorem foldl_get_var_keys (names : List String) :
    ∀ st : EncState,
      (names.foldl (fun s n => (get_var s n).2) st).var_map.map Prod.fst =
        firstOcc (st.var_map.map Prod.fst) names := by
  induction names with
  | nil => intro st; rfl
  | cons n rest ih =>
      intro st
      rw [List.foldl_cons, ih ((get_var st n).2)]
      show firstOcc _ rest = firstOcc (if n ∈ st.var_map.map Prod.fst
        then st.var_map.map Prod.fst else st.var_map.map Prod.fst ++ [n]) rest
      rw [get_var_keys]

/-- Re-querying a key just seen returns the same id and the same state. -/
theorem get_var_idem (st : EncState) (n : String) :
    get_var (get_var st n).2 n = get_var st n :=
  get_var_hit (get_var_lookup_self st n)

/-- C3: within one run, the registry is idempotent (re-querying a key
yields the same id and leaves the state unchanged), ids persist across
the rest of the run, distinct keys never share an id, the dictionary
stores the first occurrences of the key sequence with ids
`1, ..., var_counter` in first-seen order with no gaps, the counter
equals the number of distinct keys seen, and the DIMACS header emits
exactly that counter as the variable count. -/
theorem c3_registry_contract (names : List String) :
    (∀ n, get_var ((get_var (runRegistry names) n).2) n = get_var (runRegistry names) n) ∧
    (∀ (more : List String) (n : String) (v : Nat),
      lookupVar (runRegistry names).var_map n = some v →
      lookupVar (more.foldl (fun s m => (get_var s m).2) (runRegistry names)).var_map n =
        some v) ∧
    (∀ n1 n2 v, lookupVar (runRegistry names).var_map n1 = some v →
      lookupVar (runRegistry names).var_map n2 = some v → n1 = n2) ∧
    (runRegistry names).var_map.map Prod.fst = firstOcc [] names ∧
    (runRegistry names).var_map.map Prod.snd =
      List.range' 1 (runRegistry names).var_counter ∧
    (runRegistry names).var_counter = (firstOcc [] names).length ∧
    dimacsHeader (runRegistry names) = "p cnf " ++
      toString (firstOcc [] names).length ++ " " ++
      toString (runRegistry names).clauses.length := by
  have hwf : RegWF (runRegistry names) := regWF_foldl_get_var names (by rfl)
  have hkeys : (runRegistry names).var_map.map Prod.fst = firstOcc [] names :=
    foldl_get_var_keys names ⟨0, [], []⟩
  have hcounter : (runRegistry names).var_counter = (firstOcc [] names).length := by
    have hlen := congrArg List.length hwf
    rw [List.length_map, List.length_range'] at hlen
    rw [← hkeys, List.length_map, hlen]
  refine ⟨fun n => get_var_idem (runRegistry names) n, ?_, ?_, hkeys, hwf, hcounter, ?_⟩
  · intro more n v hv
    exact extendS_lookup
      (extendS_foldl id (fun s m => (get_var s m).2) (fun b a => extendS_get_var b a) more _)
      hv
  · intro n1 n2 v h1 h2
    have hnd : ((runRegistry names).var_map.map Prod.snd).Nodup := by
      rw [hwf]
      exact List.nodup_range' _ _
    exact snd_nodup_inj hnd (lookupVar_mem h1) (lookupVar_mem h2)
  · unfold dimacsHeader
    rw [hcounter]

/-- C3 witness: on the concrete run `a, b, a`, the id of `a` persists
through further queries. -/
theorem c3_witness :
    lookupVar ((["c"].foldl (fun s m => (get_var s m).2)
      (runRegistry ["a", "b", "a"]))).var_map ("a") = some 1 :=
  (c3_registry_contract ["a", "b", "a"]).2.1 ["c"] "a" 1 (by decide)

/-! ### Edge-variable creation in the Path-Flow Encoder (C1) -/

theorem mem_dirOrder (d : Dir) : d ∈ dirOrder := by
  cases d <;> simp [dirOrder]

/-- The per-cell body creates the edge variable of every direction of its
cell — in-bound or not — through the off-path implication loop. -/
theorem pathCellBody_keyD (p : Planner) (k : Nat) (sx sy ex ey x y : Int) (st : EncState)
    (d : Dir) : keyBound (pathCellBody p k sx sy ex ey x y st) (keyD x y k d) := by
  unfold pathCellBody
  dsimp only
  refine extStable_keyBound _ _ _ (extendS_pathCellRest _ _ _ _ _ _ _ _ _ _) ?_
  refine foldl_establish id _ dirOrder d (fun s => keyBound s (keyD x y k d))
    (fun _ => True) (mem_dirOrder d) ?_ (fun _ _ _ h => h) (extStable_keyBound _) ?_ _ trivial
  · intro b a
    exact extendS_add_clause_of (extendS_get_var_of (extendS_refl b) _) _
  · intro b _
    exact extStable_keyBound _ _ _ (extendS_add_clause _ _) (keyBound_get_var b _)

theorem encodePathLine_keyD (p : Planner) (st : EncState) (k x y : Nat) (d : Dir)
    (hx : x < p.N) (hy : y < p.M) :
    keyBound (encodePathLine p st k) (keyD (x : Int) (y : Int) k d) := by
  unfold encodePathLine
  dsimp only
  refine foldl_establish id _ (List.range p.N) x
    (fun s => keyBound s (keyD (x : Int) (y : Int) k d)) (fun _ => True)
    (List.mem_range.mpr hx) ?_ (fun _ _ _ h => h) (extStable_keyBound _) ?_ _ trivial
  · intro b a
    exact extendS_foldl_of (fun b2 a2 => extendS_pathCellBody p k _ _ _ _ _ _ b2)
      (extendS_refl b) _
  · intro b _
    refine foldl_establish id _ (List.range p.M) y
      (fun s => keyBound s (keyD (x : Int) (y : Int) k d)) (fun _ => True)
      (List.mem_range.mpr hy) ?_ (fun _ _ _ h => h) (extStable_keyBound _) ?_ b trivial
    · intro b2 a2
      exact extendS_pathCellBody p k _ _ _ _ _ _ b2
    · intro b2 _
      exact pathCellBody_keyD p k _ _ _ _ _ _ b2 d

theorem encode_path_constraints_keyD (p : Planner) (st : EncState) (k x y : Nat) (d : Dir)
    (hk : k < p.K) (hx : x < p.N) (hy : y < p.M) :
    keyBound (encode_path_constraints p st) (keyD (x : Int) (y : Int) k d) := by
  unfold encode_path_constraints
  exact foldl_establish id (encodePathLine p) (List.range p.K) k
    (fun s => keyBound s (keyD (x : Int) (y : Int) k d)) (fun _ => True)
    (List.mem_range.mpr hk) (fun b a => extendS_encodePathLine p b a) (fun _ _ _ h => h)
    (extStable_keyBound _) (fun b _ => encodePathLine_keyD p b k x y d hx hy) st trivial

/-- The outgoing direction set collected for the exactly-one/at-most-one
constraints contains only variables of in-bound directions. -/
theorem collectOutDirs_inbound (p : Planner) (k : Nat) (x y : Int) (st : EncState) :
    ∀ v ∈ (collectOutDirs p k x y st).1, ∃ d, inGrid p (x + dxOf d) (y + dyOf d) ∧
      lookupVar (collectOutDirs p k x y st).2.var_map (keyD x y k d) = some v := by
  unfold collectOutDirs
  refine foldl_inv (fun (b : List Nat × EncState) => ∀ v ∈ b.1,
    ∃ d, inGrid p (x + dxOf d) (y + dyOf d) ∧
      lookupVar b.2.var_map (keyD x y k d) = some v) _ dirOrder (([], st)) ?_ ?_
  · intro v hv
    simp at hv
  · intro a ha b hb
    dsimp only
    by_cases hg : inGrid p (x + dxOf a) (y + dyOf a)
    · rw [if_pos hg]
      intro v hv
      rcases List.mem_append.mp hv with hv1 | hv2
      · obtain ⟨d2, hg2, hl⟩ := hb v hv1
        exact ⟨d2, hg2, extendS_lookup (extendS_get_var b.2 _) hl⟩
      · rw [List.mem_singleton] at hv2
        subst hv2
        exact ⟨a, hg, get_var_lookup_self b.2 _⟩
    · rw [if_neg hg]
      exact hb

/-- The incoming direction set collected for the exactly-one/at-most-one
constraints contains only variables of in-bound predecessors. -/
theorem collectIncDirs_inbound (p : Planner) (k : Nat) (x y : Int) (st : EncState) :
    ∀ v ∈ (collectIncDirs p k x y st).1, ∃ d, inGrid p (x - dxOf d) (y - dyOf d) ∧
      lookupVar (collectIncDirs p k x y st).2.var_map
        (keyD (x - dxOf d) (y - dyOf d) k d) = some v := by
  unfold collectIncDirs
  refine foldl_inv (fun (b : List Nat × EncState) => ∀ v ∈ b.1,
    ∃ d, inGrid p (x - dxOf d) (y - dyOf d) ∧
      lookupVar b.2.var_map (keyD (x - dxOf d) (y - dyOf d) k d) = some v)
    _ dirOrder (([], st)) ?_ ?_
  · intro v hv
    simp at hv
  · intro a ha b hb
    dsimp only
    by_cases hg : inGrid p (x - dxOf a) (y - dyOf a)
    · rw [if_pos hg]
      intro v hv
      rcases List.mem_append.mp hv with hv1 | hv2
      · obtain ⟨d2, hg2, hl⟩ := hb v hv1
        exact ⟨d2, hg2, extendS_lookup (extendS_get_var b.2 _) hl⟩
      · rw [List.mem_singleton] at hv2
        subst hv2
        exact ⟨a, hg, get_var_lookup_self b.2 _⟩
    · rw [if_neg hg]
      exact hb

/-- C1 (amended): the Path-Flow Encoder creates an edge variable for
every cell and all four directions — including directions whose neighbor
lies outside the grid — through the off-path implication loop (and the
end-cell forcing loop); only the direction sets passed to the
exactly-one/at-most-one constraints are pruned to in-bound neighbors. -/
theorem c1_path_edge_vars (p : Planner) (st : EncState) (k x y : Nat) (d : Dir)
    (hk : k < p.K) (hx : x < p.N) (hy : y < p.M) :
    keyBound (encode_path_constraints p st) (keyD (x : Int) (y : Int) k d) ∧
    (∀ (st2 : EncState) (v : Nat), v ∈ (collectOutDirs p k (x : Int) (y : Int) st2).1 →
      ∃ d2, inGrid p ((x : Int) + dxOf d2) ((y : Int) + dyOf d2) ∧
        lookupVar (collectOutDirs p k (x : Int) (y : Int) st2).2.var_map
          (keyD (x : Int) (y : Int) k d2) = some v) ∧
    (∀ (st2 : EncState) (v : Nat), v ∈ (collectIncDirs p k (x : Int) (y : Int) st2).1 →
      ∃ d2, inGrid p ((x : Int) - dxOf d2) ((y : Int) - dyOf d2) ∧
        lookupVar (collectIncDirs p k (x : Int) (y : Int) st2).2.var_map
          (keyD ((x : Int) - dxOf d2) ((y : Int) - dyOf d2) k d2) = some v) :=
  ⟨encode_path_constraints_keyD p st k x y d hk hx hy,
   fun st2 => collectOutDirs_inbound p k (x : Int) (y : Int) st2,
   fun st2 => collectIncDirs_inbound p k (x : Int) (y : Int) st2⟩

/-- C1 witness: on a concrete 2-by-2 instance the key of the out-of-grid
left edge at the origin is bound after the Path-Flow Encoder runs. -/
theorem c1_witness :
    keyBound (encode_path_constraints ⟨1, 2, 2, 1, 1, 0, [(0, 0)], [(1, 1)], []⟩ ⟨0, [], []⟩)
      (keyD 0 0 0 Dir.L) :=
  (c1_path_edge_vars ⟨1, 2, 2, 1, 1, 0, [(0, 0)], [(1, 1)], []⟩ ⟨0, [], []⟩ 0 0 0 Dir.L
    (by decide) (by decide) (by decide)).1

/-- C1 counterexample: on a concrete 2-by-2 instance the Path-Flow
Encoder allocates the variable of key `("D", 0, 0, 0, L)` (id 3) even
though the left neighbor of cell `(0, 0)` lies outside the grid, refuting
that edge variables pointing outside the grid are never created. -/
theorem c1_counterexample :
    lookupVar (encode_path_constraints ⟨1, 2, 2, 1, 1, 0, [(0, 0)], [(1, 1)], []⟩
        ⟨0, [], []⟩).var_map (keyD 0 0 0 Dir.L) = some 3 ∧
      ¬ inGrid ⟨1, 2, 2, 1, 1, 0, [(0, 0)], [(1, 1)], []⟩ (0 + dxOf Dir.L) (0 + dyOf Dir.L) := by
  constructor
  · decide
  · decide

/-! ### The Turn-Budget Encoder's clauses (C9) -/

theorem add_clause_mem {c : List Int} (st : EncState) (h : c ≠ []) :
    c ∈ (add_clause st c).clauses := by
  unfold add_clause
  rw [if_neg h]
  exact List.mem_append_right _ (List.mem_singleton.mpr rfl)

/-- The defining clause of one incoming/outgoing direction pair at an
interior cell has been emitted, with the three literals bound in the
registry: negated in-edge, negated out-edge, and the turn indicator
(positive when the directions differ, negated when they agree). -/
def turnEmitted (ki ko kt : String) (same : Prop) [Decidable same] (s : EncState) : Prop :=
  ∃ inv outv tv, lookupVar s.var_map ki = some inv ∧
    lookupVar s.var_map ko = some outv ∧
    lookupVar s.var_map kt = some tv ∧
    (if same then [-(inv : Int), -(outv : Int), -(tv : Int)]
      else [-(inv : Int), -(outv : Int), (tv : Int)]) ∈ s.clauses

theorem extStable_turnEmitted (ki ko kt : String) (same : Prop) [Decidable same] :
    ExtStable (turnEmitted ki ko kt same) := by
  rintro s s' hext ⟨inv, outv, tv, h1, h2, h3, h4⟩
  exact ⟨inv, outv, tv, extendS_lookup hext h1, extendS_lookup hext h2,
    extendS_lookup hext h3, extendS_clause_mem hext h4⟩

theorem turnPairBody_emits (p : Planner) (k : Nat) (x y : Int) (tvar : Nat)
    (st : EncState) (di dz : Dir)
    (hin : inGrid p (x - dxOf di) (y - dyOf di))
    (hout : inGrid p (x + dxOf dz) (y + dyOf dz))
    (hT : lookupVar st.var_map (keyT x y k) = some tvar) :
    turnEmitted (keyD (x - dxOf di) (y - dyOf di) k di) (keyD x y k dz) (keyT x y k)
      (di = dz) (turnPairBody p k x y tvar st) := by
  unfold turnPairBody
  refine foldl_establish id _ dirOrder di
    (turnEmitted (keyD (x - dxOf di) (y - dyOf di) k di) (keyD x y k dz) (keyT x y k)
      (di = dz))
    (fun s => lookupVar s.var_map (keyT x y k) = some tvar)
    (mem_dirOrder di) ?_ (extStable_lookup _ _) (extStable_turnEmitted _ _ _ _) ?_ _ hT
  · intro b a
    dsimp only
    split
    · refine extendS_foldl_of ?_ (extendS_get_var_of (extendS_refl b) _) _
      intro b2 a2
      dsimp only
      split
      · split
        · exact extendS_add_clause_of (extendS_get_var_of (extendS_refl b2) _) _
        · exact extendS_add_clause_of (extendS_get_var_of (extendS_refl b2) _) _
      · exact extendS_refl b2
    · exact extendS_refl b
  · intro b hTb
    dsimp only
    rw [if_pos hin]
    have hIn : lookupVar (get_var b (keyD (x - dxOf di) (y - dyOf di) k di)).2.var_map
        (keyD (x - dxOf di) (y - dyOf di) k di) =
        some (get_var b (keyD (x - dxOf di) (y - dyOf di) k di)).1 :=
      get_var_lookup_self b _
    have hTb2 : lookupVar (get_var b (keyD (x - dxOf di) (y - dyOf di) k di)).2.var_map
        (keyT x y k) = some tvar :=
      extendS_lookup (extendS_get_var b _) hTb
    refine foldl_establish id _ dirOrder dz
      (turnEmitted (keyD (x - dxOf di) (y - dyOf di) k di) (keyD x y k dz) (keyT x y k)
        (di = dz))
      (fun s => lookupVar s.var_map (keyD (x - dxOf di) (y - dyOf di) k di) =
          some (get_var b (keyD (x - dxOf di) (y - dyOf di) k di)).1 ∧
        lookupVar s.var_map (keyT x y k) = some tvar)
      (mem_dirOrder dz) ?_
      (extStable_and (extStable_lookup _ _) (extStable_lookup _ _))
      (extStable_turnEmitted _ _ _ _) ?_ _ ⟨hIn, hTb2⟩
    · intro b2 a2
      dsimp only
      split
      · split
        · exact extendS_add_clause_of (extendS_get_var_of (extendS_refl b2) _) _
        · exact extendS_add_clause_of (extendS_get_var_of (extendS_refl b2) _) _
      · exact extendS_refl b2
    · intro b2 hC
      dsimp only
      rw [if_pos hout]
      have hOut : lookupVar (get_var b2 (keyD x y k dz)).2.var_map (keyD x y k dz) =
          some (get_var b2 (keyD x y k dz)).1 := get_var_lookup_self b2 _
      by_cases hsame : di = dz
      · rw [if_neg (by simpa using hsame)]
        refine ⟨(get_var b (keyD (x - dxOf di) (y - dyOf di) k di)).1,
          (get_var b2 (keyD x y k dz)).1, tvar, ?_, ?_, ?_, ?_⟩
        · exact extendS_lookup (extendS_add_clause _ _)
            (extendS_lookup (extendS_get_var b2 _) hC.1)
        · exact extendS_lookup (extendS_add_clause _ _) hOut
        · exact extendS_lookup (extendS_add_clause _ _)
            (extendS_lookup (extendS_get_var b2 _) hC.2)
        · rw [if_pos hsame]
          exact add_clause_mem _ (by simp)
      · rw [if_pos (by simpa using hsame)]
        refine ⟨(get_var b (keyD (x - dxOf di) (y - dyOf di) k di)).1,
          (get_var b2 (keyD x y k dz)).1, tvar, ?_, ?_, ?_, ?_⟩
        · exact extendS_lookup (extendS_add_clause _ _)
            (extendS_lookup (extendS_get_var b2 _) hC.1)
        · exact extendS_lookup (extendS_add_clause _ _) hOut
        · exact extendS_lookup (extendS_add_clause _ _)
            (extendS_lookup (extendS_get_var b2 _) hC.2)
        · rw [if_neg hsame]
          exact add_clause_mem _ (by simp)

theorem turnCellBody_emits (p : Planner) (k : Nat) (sx sy ex ey x y : Int)
    (acc : List Nat × EncState) (di dz : Dir)
    (hstart : ¬(x = sx ∧ y = sy)) (hend : ¬(x = ex ∧ y = ey))
    (hin : inGrid p (x - dxOf di) (y - dyOf di))
    (hout : inGrid p (x + dxOf dz) (y + dyOf dz)) :
    turnEmitted (keyD (x - dxOf di) (y - dyOf di) k di) (keyD x y k dz) (keyT x y k)
      (di = dz) (turnCellBody p k sx sy ex ey x y acc).2 := by
  unfold turnCellBody
  rw [if_neg (by tauto)]
  exact turnPairBody_emits p k x y _ _ di dz hin hout (get_var_lookup_self acc.2 _)

theorem turnLineFold_emits (p : Planner) (k : Nat) (st : EncState) (x y : Nat)
    (di dz : Dir) (hx : x < p.N) (hy : y < p.M)
    (hstart : ¬((x : Int) = (p.starts.getD k (0, 0)).1 ∧
      (y : Int) = (p.starts.getD k (0, 0)).2))
    (hend : ¬((x : Int) = (p.ends.getD k (0, 0)).1 ∧
      (y : Int) = (p.ends.getD k (0, 0)).2))
    (hin : inGrid p ((x : Int) - dxOf di) ((y : Int) - dyOf di))
    (hout : inGrid p ((x : Int) + dxOf dz) ((y : Int) + dyOf dz)) :
    turnEmitted (keyD ((x : Int) - dxOf di) ((y : Int) - dyOf di) k di)
      (keyD (x : Int) (y : Int) k dz) (keyT (x : Int) (y : Int) k) (di = dz)
      (turnLineFold p k st).2 := by
  unfold turnLineFold
  dsimp only
  refine foldl_establish Prod.snd _ (List.range p.N) x
    (turnEmitted (keyD ((x : Int) - dxOf di) ((y : Int) - dyOf di) k di)
      (keyD (x : Int) (y : Int) k dz) (keyT (x : Int) (y : Int) k) (di = dz))
    (fun _ => True) (List.mem_range.mpr hx) ?_ (fun _ _ _ h => h)
    (extStable_turnEmitted _ _ _ _) ?_ _ trivial
  · intro b a
    refine extendS_foldl_snd_of ?_ (extendS_refl b.2) _
    intro b2 a2
    exact extendS_turnCellBody p k _ _ _ _ _ _ b2
  · intro b _
    refine foldl_establish Prod.snd _ (List.range p.M) y
      (turnEmitted (keyD ((x : Int) - dxOf di) ((y : Int) - dyOf di) k di)
        (keyD (x : Int) (y : Int) k dz) (keyT (x : Int) (y : Int) k) (di = dz))
      (fun _ => True) (List.mem_range.mpr hy) ?_ (fun _ _ _ h => h)
      (extStable_turnEmitted _ _ _ _) ?_ b trivial
    · intro b2 a2
      exact extendS_turnCellBody p k _ _ _ _ _ _ b2
    · intro b2 _
      exact turnCellBody_emits p k _ _ _ _ _ _ b2 di dz hstart hend hin hout

theorem encodeTurnLine_emits (p : Planner) (tag : Nat) (st : EncState) (k x y : Nat)
    (di dz : Dir) (hx : x < p.N) (hy : y < p.M)
    (hstart : ¬((x : Int) = (p.starts.getD k (0, 0)).1 ∧
      (y : Int) = (p.starts.getD k (0, 0)).2))
    (hend : ¬((x : Int) = (p.ends.getD k (0, 0)).1 ∧
      (y : Int) = (p.ends.getD k (0, 0)).2))
    (hin : inGrid p ((x : Int) - dxOf di) ((y : Int) - dyOf di))
    (hout : inGrid p ((x : Int) + dxOf dz) ((y : Int) + dyOf dz)) :
    turnEmitted (keyD ((x : Int) - dxOf di) ((y : Int) - dyOf di) k di)
      (keyD (x : Int) (y : Int) k dz) (keyT (x : Int) (y : Int) k) (di = dz)
      (encodeTurnLine p tag st k) := by
  unfold encodeTurnLine
  dsimp only
  have hbase := turnLineFold_emits p k st x y di dz hx hy hstart hend hin hout
  split
  · exact extStable_turnEmitted _ _ _ _ _ _ (extendS_encode_at_most_k_simple _ _ _ _) hbase
  · exact hbase

/-- The at-most-k call of one line, with the guard removed: when
`J >= 0`, the per-line turn encoding is exactly the at-most-k encoder
applied to the collected turn variables with bound `J` (for an empty
collection both sides leave the state unchanged). -/
theorem encodeTurnLine_amk (p : Planner) (tag : Nat) (st : EncState) (k : Nat)
    (hJ : 0 ≤ p.J) :
    encodeTurnLine p tag st k = encode_at_most_k_simple (turnLineFold p k st).1 p.J tag
      (turnLineFold p k st).2 := by
  unfold encodeTurnLine
  dsimp only
  by_cases hne : (turnLineFold p k st).1 = []
  · rw [if_neg (by tauto)]
    rw [hne]
    unfold encode_at_most_k_simple
    rw [if_pos (by simpa using hJ)]
  · rw [if_pos ⟨hJ, hne⟩]

/-- C9: per line `k` and per interior cell, for every pair of an in-bound
incoming direction and an in-bound outgoing direction, the turn encoder
emits the clause linking the two edge variables to the cell's turn
indicator — positive turn indicator when the directions differ, negated
when they agree — and, when `J >= 0`, each line's collected turn
indicators are bounded by `J` via the at-most-k encoder. -/
theorem c9_turn_encoder (tags : Nat → Nat) (p : Planner) (st : EncState) (hJ : 0 ≤ p.J) :
    (∀ (k x y : Nat) (di dz : Dir), k < p.K → x < p.N → y < p.M →
      ¬((x : Int) = (p.starts.getD k (0, 0)).1 ∧
        (y : Int) = (p.starts.getD k (0, 0)).2) →
      ¬((x : Int) = (p.ends.getD k (0, 0)).1 ∧
        (y : Int) = (p.ends.getD k (0, 0)).2) →
      inGrid p ((x : Int) - dxOf di) ((y : Int) - dyOf di) →
      inGrid p ((x : Int) + dxOf dz) ((y : Int) + dyOf dz) →
      turnEmitted (keyD ((x : Int) - dxOf di) ((y : Int) - dyOf di) k di)
        (keyD (x : Int) (y : Int) k dz) (keyT (x : Int) (y : Int) k) (di = dz)
        (encode_turn_constraints tags p st)) ∧
    (∀ (st0 : EncState) (tag k : Nat),
      encodeTurnLine p tag st0 k = encode_at_most_k_simple (turnLineFold p k st0).1 p.J
        tag (turnLineFold p k st0).2) := by
  constructor
  · intro k x y di dz hk hx hy hstart hend hin hout
    unfold encode_turn_constraints
    refine foldl_establish id _ (List.range p.K) k
      (turnEmitted (keyD ((x : Int) - dxOf di) ((y : Int) - dyOf di) k di)
        (keyD (x : Int) (y : Int) k dz) (keyT (x : Int) (y : Int) k) (di = dz))
      (fun _ => True) (List.mem_range.mpr hk)
      (fun b a => extendS_encodeTurnLine p (tags a) b a) (fun _ _ _ h => h)
      (extStable_turnEmitted _ _ _ _)
      (fun b _ => encodeTurnLine_emits p (tags k) b k x y di dz hx hy hstart hend hin hout)
      st trivial
  · intro st0 tag k
    exact encodeTurnLine_amk p tag st0 k hJ

/-- C9 witness: on a concrete 3-by-1 instance with one line from `(0,0)`
to `(2,0)`, the straight-through pair `R`-into-`(1,0)`, `R`-out emits its
defining clause with the negated turn indicator. -/
theorem c9_witness :
    turnEmitted (keyD 0 0 0 Dir.R) (keyD 1 0 0 Dir.R) (keyT 1 0 0) (Dir.R = Dir.R)
      (encode_turn_constraints (fun t => t) ⟨1, 3, 1, 1, 0, 0, [(0, 0)], [(2, 0)], []⟩
        ⟨0, [], []⟩) :=
  (c9_turn_encoder (fun t => t) ⟨1, 3, 1, 1, 0, 0, [(0, 0)], [(2, 0)], []⟩ ⟨0, [], []⟩
    (by decide)).1 0 1 0 Dir.R Dir.R (by decide) (by decide) (by decide)
    (by decide) (by decide) (by decide) (by decide)

/-! ### Auxiliary-variable aliasing in the sequential counter (C2) -/

/-- The registry fields (counter and dictionary) of `s` agree with those
of `st`. -/
def RegEq (st s : EncState) : Prop :=
  s.var_counter = st.var_counter ∧ s.var_map = st.var_map

theorem regEq_add_clause {st s : EncState} (h : RegEq st s) (lits : List Int) :
    RegEq st (add_clause s lits) := by
  unfold add_clause
  split
  · exact h
  · exact h

/-- Each iteration of the sequential-counter double loop binds its own
`S(i, j)` key. -/
theorem encodeSeqCell_keyBound (vars : List Nat) (kt tag i j : Nat) (s : EncState) :
    keyBound (encodeSeqCell vars kt tag i j s) (seqKey tag i j) := by
  unfold encodeSeqCell
  dsimp only
  have h0 : keyBound (get_var s (seqKey tag i j)).2 (seqKey tag i j) := keyBound_get_var s _
  split
  · split
    · exact extStable_keyBound _ _ _ (extendS_add_clause _ _) h0
    · exact extStable_keyBound _ _ _ (extendS_add_clause _ _) h0
  · split
    · exact extStable_keyBound _ _ _ (extendS_add_clause _ _) h0
    · split
      · exact extStable_keyBound _ _ _
          (extendS_add_clause_of (extendS_add_clause_of
            (extendS_add_clause_of (extendS_get_var_of (extendS_refl _) _) _) _) _) h0
      · split
        · exact extStable_keyBound _ _ _
            (extendS_add_clause_of (extendS_add_clause_of (extendS_add_clause_of
              (extendS_add_clause_of (extendS_get_var_of
                (extendS_get_var_of (extendS_refl _) _) _) _) _) _) _) h0
        · exact h0

/-- Extension through the final `valid_states` collection fold of the
sequential counter. -/
theorem extendS_seqValid (vars : List Nat) (kt tag : Nat) (s1 : EncState) :
    ExtendS s1 ((List.range (kt + 1)).foldl (fun a j =>
      let rv := get_var a.2 (seqKey tag vars.length j)
      (a.1 ++ [(rv.1 : Int)], rv.2)) (([] : List Int), s1)).2 := by
  refine extendS_foldl_snd_of ?_ ?_ _
  · intro b a
    exact extendS_get_var b.2 _
  · exact extendS_refl s1

/-- After the sequential-counter branch runs, every auxiliary key of its
loop ranges is bound in the registry. -/
theorem encodeSeqCounter_keys (vars : List Nat) (kt tag : Nat) (st : EncState)
    (i j : Nat) (hi : i ≤ vars.length) (hj : j ≤ min i kt + 1) :
    keyBound (encodeSeqCounter vars kt tag st) (seqKey tag i j) := by
  unfold encodeSeqCounter
  dsimp only
  refine extStable_keyBound _ _ _ (extendS_add_clause _ _) ?_
  refine extStable_keyBound _ _ _ (extendS_seqValid vars kt tag _) ?_
  refine foldl_establish id _ (List.range (vars.length + 1)) i
    (fun s => keyBound s (seqKey tag i j)) (fun _ => True)
    (List.mem_range.mpr (by omega)) ?_ (fun _ _ _ h => h) (extStable_keyBound _) ?_ _ trivial
  · intro b a
    exact extendS_foldl_of (fun b2 a2 => extendS_encodeSeqCell vars kt tag a a2 b2)
      (extendS_refl b) _
  · intro b _
    refine foldl_establish id _ (List.range (min i kt + 2)) j
      (fun s => keyBound s (seqKey tag i j)) (fun _ => True)
      (List.mem_range.mpr (by omega)) ?_ (fun _ _ _ h => h) (extStable_keyBound _) ?_ b trivial
    · intro b2 a2
      exact extendS_encodeSeqCell vars kt tag i a2 b2
    · intro b2 _
      exact encodeSeqCell_keyBound vars kt tag i j b2

/-- When every auxiliary key it would touch is already bound, one
iteration of the double loop neither allocates nor changes the registry. -/
theorem encodeSeqCell_regEq (vars : List Nat) (kt tag i j : Nat) {st s : EncState}
    (hi : i ≤ vars.length) (hj : j ≤ min i kt + 1)
    (hpres : ∀ i2 j2, i2 ≤ vars.length → j2 ≤ min i2 kt + 1 →
      keyBound st (seqKey tag i2 j2))
    (hr : RegEq st s) : RegEq st (encodeSeqCell vars kt tag i j s) := by
  obtain ⟨v, hv0⟩ := hpres i j hi hj
  have hv : lookupVar s.var_map (seqKey tag i j) = some v := by rw [hr.2]; exact hv0
  unfold encodeSeqCell
  dsimp only
  rw [get_var_hit hv]
  split
  · split
    · exact regEq_add_clause hr _
    · exact regEq_add_clause hr _
  · rename_i hi0
    split
    · exact regEq_add_clause hr _
    · rename_i hji
      split
      · obtain ⟨vp, hvp0⟩ := hpres (i - 1) 0 (by omega) (by omega)
        have hvp : lookupVar s.var_map (seqKey tag (i - 1) 0) = some vp := by
          rw [hr.2]; exact hvp0
        rw [get_var_hit hvp]
        exact regEq_add_clause (regEq_add_clause (regEq_add_clause hr _) _) _
      · rename_i hj0
        split
        · rename_i hjk
          obtain ⟨va, hva0⟩ := hpres (i - 1) j (by omega) (by omega)
          have hva : lookupVar s.var_map (seqKey tag (i - 1) j) = some va := by
            rw [hr.2]; exact hva0
          rw [get_var_hit hva]
          obtain ⟨vb, hvb0⟩ := hpres (i - 1) (j - 1) (by omega) (by omega)
          have hvb : lookupVar s.var_map (seqKey tag (i - 1) (j - 1)) = some vb := by
            rw [hr.2]; exact hvb0
          rw [get_var_hit hvb]
          exact regEq_add_clause (regEq_add_clause (regEq_add_clause
            (regEq_add_clause hr _) _) _) _
        · exact hr

/-- When every auxiliary key of its ranges is already bound, the whole
sequential-counter branch neither allocates nor changes the registry. -/
theorem encodeSeqCounter_regEq (vars : List Nat) (kt tag : Nat) (st : EncState)
    (hkt : kt ≤ vars.length)
    (hpres : ∀ i j, i ≤ vars.length → j ≤ min i kt + 1 →
      keyBound st (seqKey tag i j)) :
    RegEq st (encodeSeqCounter vars kt tag st) := by
  unfold encodeSeqCounter
  dsimp only
  have h1 : RegEq st ((List.range (vars.length + 1)).foldl (fun s i =>
      (List.range (min i kt + 2)).foldl (fun s2 j => encodeSeqCell vars kt tag i j s2) s)
      st) := by
    refine foldl_inv (RegEq st) _ (List.range (vars.length + 1)) st ⟨rfl, rfl⟩ ?_
    intro a ha b hb
    have ha1 := List.mem_range.mp ha
    refine foldl_inv (RegEq st) _ (List.range (min a kt + 2)) b hb ?_
    intro a2 ha2 b2 hb2
    have ha3 := List.mem_range.mp ha2
    exact encodeSeqCell_regEq vars kt tag a a2 (by omega) (by omega) hpres hb2
  refine regEq_add_clause ?_ _
  refine foldl_inv (fun (b : List Int × EncState) => RegEq st b.2) _
    (List.range (kt + 1)) _ h1 ?_
  intro a ha b hb
  have hja : a < kt + 1 := List.mem_range.mp ha
  obtain ⟨v, hv0⟩ := hpres vars.length a (le_refl _) (by omega)
  have hv : lookupVar b.2.var_map (seqKey tag vars.length a) = some v := by
    rw [hb.2]; exact hv0
  dsimp only
  rw [get_var_hit hv]
  exact hb

/-- C2 (amended): the sequential-counter auxiliaries are namespaced only
by the `tag` modelling `id(variables)`.  Two sequential-branch calls that
receive the same tag over equal-length variable lists alias all their
auxiliary state: the second call allocates no variable at all and leaves
the registry (counter and dictionary) exactly as the first call left it,
reusing the first call's auxiliary ids in its clauses. -/
theorem c2_seq_aliasing (vars1 vars2 : List Nat) (k : Int) (tag : Nat) (st : EncState)
    (hlen : vars2.length = vars1.length) (h3 : 3 < k) (hk : k < (vars1.length : Int)) :
    (encode_at_most_k_simple vars2 k tag
        (encode_at_most_k_simple vars1 k tag st)).var_counter =
      (encode_at_most_k_simple vars1 k tag st).var_counter ∧
    (encode_at_most_k_simple vars2 k tag
        (encode_at_most_k_simple vars1 k tag st)).var_map =
      (encode_at_most_k_simple vars1 k tag st).var_map := by
  have hb1 : encode_at_most_k_simple vars1 k tag st = encodeSeqCounter vars1 k.toNat tag st := by
    unfold encode_at_most_k_simple
    rw [if_neg (by omega), if_neg (by omega), if_neg (by omega)]
  have hb2 : ∀ s, encode_at_most_k_simple vars2 k tag s = encodeSeqCounter vars2 k.toNat tag s := by
    intro s
    unfold encode_at_most_k_simple
    rw [if_neg (by omega), if_neg (by omega), if_neg (by omega)]
  rw [hb1, hb2]
  have hpres : ∀ i j, i ≤ vars2.length → j ≤ min i k.toNat + 1 →
      keyBound (encodeSeqCounter vars1 k.toNat tag st) (seqKey tag i j) := by
    intro i j hi hj
    exact encodeSeqCounter_keys vars1 k.toNat tag st i j (by omega) hj
  exact encodeSeqCounter_regEq vars2 k.toNat tag (encodeSeqCounter vars1 k.toNat tag st)
    (by omega) hpres

/-- C2 witness: two concrete equal-tag calls over disjoint six-variable
lists; the second call's counter equals the first call's. -/
theorem c2_witness :
    (encode_at_most_k_simple [7, 8, 9, 10, 11, 12] 4 77
        (encode_at_most_k_simple [1, 2, 3, 4, 5, 6] 4 77 ⟨12, [], []⟩)).var_counter =
      (encode_at_most_k_simple [1, 2, 3, 4, 5, 6] 4 77 ⟨12, [], []⟩).var_counter :=
  (c2_seq_aliasing [1, 2, 3, 4, 5, 6] [7, 8, 9, 10, 11, 12] 4 77 ⟨12, [], []⟩
    (by decide) (by decide) (by decide)).1

/-- C2 counterexample: with the same tag (the same `id(variables)`
value), two distinct sequential-branch calls alias their auxiliaries: the
first call allocates 32 auxiliary variables (counter 12 to 44), the
second allocates none, and both use id 13 for their `S(0, 0)` state. -/
theorem c2_counterexample :
    (encode_at_most_k_simple [7, 8, 9, 10, 11, 12] 4 77
        (encode_at_most_k_simple [1, 2, 3, 4, 5, 6] 4 77 ⟨12, [], []⟩)).var_counter = 44 ∧
    (encode_at_most_k_simple [1, 2, 3, 4, 5, 6] 4 77 ⟨12, [], []⟩).var_counter = 44 ∧
    lookupVar (encode_at_most_k_simple [1, 2, 3, 4, 5, 6] 4 77 ⟨12, [], []⟩).var_map
      (seqKey 77 0 0) = some 13 ∧
    lookupVar (encode_at_most_k_simple [7, 8, 9, 10, 11, 12] 4 77
        (encode_at_most_k_simple [1, 2, 3, 4, 5, 6] 4 77 ⟨12, [], []⟩)).var_map
      (seqKey 77 0 0) = some 13 := by
  refine ⟨?_, ?_, ?_, ?_⟩ <;> decide

/-! ### The decoder's effect on encoder state (C8) -/

/-- Decoding-side extension: the clause store is exactly preserved, the
dictionary is only appended to, and the counter never decreases. -/
def DecExt (st st' : EncState) : Prop :=
  st'.clauses = st.clauses ∧ (∃ mt, st'.var_map = st.var_map ++ mt) ∧
    st.var_counter ≤ st'.var_counter

theorem decExt_refl (st : EncState) : DecExt st st :=
  ⟨rfl, ⟨[], (List.append_nil _).symm⟩, le_refl _⟩

theorem decExt_trans {s t u : EncState} (h1 : DecExt s t) (h2 : DecExt t u) :
    DecExt s u := by
  obtain ⟨hc1, ⟨m1, hm1⟩, hn1⟩ := h1
  obtain ⟨hc2, ⟨m2, hm2⟩, hn2⟩ := h2
  exact ⟨hc2.trans hc1, ⟨m1 ++ m2, by rw [hm2, hm1, List.append_assoc]⟩, le_trans hn1 hn2⟩

theorem decExt_get_var (st : EncState) (n : String) : DecExt st (get_var st n).2 := by
  unfold get_var
  cases h : lookupVar st.var_map n with
  | some v => exact decExt_refl st
  | none => exact ⟨rfl, ⟨[(n, st.var_counter + 1)], rfl⟩, Nat.le_succ _⟩

theorem decExt_findDir (assign : List Int) (k : Nat) (x y : Int) :
    ∀ (ds : List Dir) (st : EncState), DecExt st (findDir assign k x y ds st).2 := by
  intro ds
  induction ds with
  | nil => intro st; exact decExt_refl st
  | cons d rest ih =>
      intro st
      show DecExt st (if assign.contains (((get_var st (keyD x y k d)).1 : Nat) : Int)
        then (some d, (get_var st (keyD x y k d)).2)
        else findDir assign k x y rest (get_var st (keyD x y k d)).2).2
      split
      · exact decExt_get_var st _
      · exact decExt_trans (decExt_get_var st _) (ih _)

theorem decExt_walkAux (assign : List Int) (k : Nat) (ex ey : Int) :
    ∀ (fuel : Nat) (x y : Int) (path : List Dir) (st : EncState),
      DecExt st (walkAux assign k ex ey fuel x y path st).2 := by
  intro fuel
  induction fuel with
  | zero => intro x y path st; exact decExt_refl st
  | succ f ih =>
      intro x y path st
      simp only [walkAux]
      by_cases hend : x = ex ∧ y = ey
      · rw [if_pos hend]
        exact decExt_refl st
      · rw [if_neg hend]
        have hfd := decExt_findDir assign k x y dirOrder st
        rcases hf : findDir assign k x y dirOrder st with ⟨od, st'⟩
        rw [hf] at hfd
        cases od with
        | none => exact hfd
        | some d => exact decExt_trans hfd (ih _ _ _ _)

theorem decExt_decodePathsAux (assign : List Int) (p : Planner) (fuel : Nat) :
    ∀ (ks : List Nat) (st : EncState), DecExt st (decodePathsAux assign p fuel ks st).2 := by
  intro ks
  induction ks with
  | nil => intro st; exact decExt_refl st
  | cons k rest ih =>
      intro st
      simp only [decodePathsAux]
      have hw := decExt_walkAux assign k (p.ends.getD k (0, 0)).1 (p.ends.getD k (0, 0)).2
        fuel (p.starts.getD k (0, 0)).1 (p.starts.getD k (0, 0)).2 [] st
      rcases hf : walkAux assign k (p.ends.getD k (0, 0)).1 (p.ends.getD k (0, 0)).2
          fuel (p.starts.getD k (0, 0)).1 (p.starts.getD k (0, 0)).2 [] st with ⟨ow, st'⟩
      rw [hf] at hw
      cases ow with
      | none => exact hw
      | some path =>
          dsimp only
          have hr := ih st'
          rcases hg : decodePathsAux assign p fuel rest st' with ⟨or2, st''⟩
          rw [hg] at hr
          cases or2 with
          | none => exact decExt_trans hw hr
          | some rest2 => exact decExt_trans hw hr

/-- C8 (amended): running the decoder never changes the Clause Store and
never alters or removes an existing Registry entry; it can only append
fresh entries (and so only increase the counter) — which it does when the
walk queries an edge key never created during encoding, as when it leaves
the grid. -/
theorem c8_decoder_frame (fuel : Nat) (sat : Option (List String)) (p : Planner)
    (st : EncState) :
    (decode_sat_output fuel sat p st).2.clauses = st.clauses ∧
    (∃ mt, (decode_sat_output fuel sat p st).2.var_map = st.var_map ++ mt) ∧
    st.var_counter ≤ (decode_sat_output fuel sat p st).2.var_counter := by
  unfold decode_sat_output
  cases sat with
  | none => exact decExt_refl st
  | some ls =>
      cases ls with
      | nil => exact decExt_refl st
      | cons l0 rest =>
          dsimp only
          split
          · exact decExt_refl st
          · have hd := decExt_decodePathsAux (parseAssignments rest) p fuel
              (List.range p.K) st
            rcases hf : decodePathsAux (parseAssignments rest) p fuel
                (List.range p.K) st with ⟨orr, st'⟩
            rw [hf] at hd
            cases orr with
            | none => exact hd
            | some paths => exact hd

/-- C8 counterexample: on a concrete 2-by-1 instance, decoding an
assignment that asserts the out-of-grid edge variable `("D",0,0,0,L)`
(id 3) makes the decoder walk off the grid and allocate four fresh
variables through `get_var`: the registry counter grows from 10 to 14,
refuting that the registry holds exactly its end-of-encoding values after
every decode. -/
theorem c8_counterexample :
    lookupVar (encode_to_sat (fun t => t)
        ⟨1, 2, 1, 1, 0, 0, [(0, 0)], [(1, 0)], []⟩).var_map (keyD 0 0 0 Dir.L) = some 3 ∧
    (encode_to_sat (fun t => t) ⟨1, 2, 1, 1, 0, 0, [(0, 0)], [(1, 0)], []⟩).var_counter = 10 ∧
    (decode_sat_output 5 (some ["SAT", "3 0"]) ⟨1, 2, 1, 1, 0, 0, [(0, 0)], [(1, 0)], []⟩
        (encode_to_sat (fun t => t)
          ⟨1, 2, 1, 1, 0, 0, [(0, 0)], [(1, 0)], []⟩)).2.var_counter = 14 := by
  refine ⟨?_, ?_, ?_⟩ <;> decide

/-! ### Termination of the decoder's walk (C10) -/

/-- A 3-by-1 instance with one line from `(0,0)` to `(2,0)`. -/
def cyclePlanner : Planner := ⟨1, 3, 1, 1, 0, 0, [(0, 0)], [(2, 0)], []⟩

/-- Its encoder state after `encode_to_sat`. -/
def cycleState : EncState := encode_to_sat (fun t => t) cyclePlanner

/-- Under the assignment asserting the two edge variables
`("D",0,0,0,R)` (id 5) and `("D",1,0,0,L)` (id 8), the decoder's walk
oscillates between cells `(0,0)` and `(1,0)` and never exits, whatever
the fuel. -/
theorem cycle_walk_none : ∀ (f : Nat) (path : List Dir),
    (walkAux [5, 8] 0 2 0 f 0 0 path cycleState).1 = none ∧
    (walkAux [5, 8] 0 2 0 f 1 0 path cycleState).1 = none := by
  intro f
  induction f with
  | zero => intro path; exact ⟨rfl, rfl⟩
  | succ n ih =>
      intro path
      constructor
      · show (walkAux [5, 8] 0 2 0 n 1 0 (path ++ [Dir.R]) cycleState).1 = none
        exact (ih (path ++ [Dir.R])).2
      · show (walkAux [5, 8] 0 2 0 n 0 0 (path ++ [Dir.L]) cycleState).1 = none
        exact (ih (path ++ [Dir.L])).1

/-- C10 counterexample: a concrete finite assignment (the true variables
5 and 8, which are exactly the edge variables `("D",0,0,0,R)` and
`("D",1,0,0,L)` of the encoded 3-by-1 instance) makes the decoder's walk
loop forever: it neither reaches the end cell `(2,0)` nor stops at a cell
without an asserted outgoing direction. -/
theorem c10_counterexample :
    lookupVar cycleState.var_map (keyD 0 0 0 Dir.R) = some 5 ∧
    lookupVar cycleState.var_map (keyD 1 0 0 Dir.L) = some 8 ∧
    ¬ walkHalts [5, 8] 0 2 0 0 0 cycleState := by
  refine ⟨by decide, by decide, ?_⟩
  rintro ⟨f, hf⟩
  exact hf (cycle_walk_none f []).1

/-- When the walk exhausts its fuel, it performed exactly `fuel` moves,
so its trace has `fuel + 1` cells. -/
theorem walkTrace_length_of_none (assign : List Int) (k : Nat) (ex ey : Int) :
    ∀ (fuel : Nat) (x y : Int) (path : List Dir) (st : EncState),
      (walkAux assign k ex ey fuel x y path st).1 = none →
      (walkTrace assign k ex ey fuel x y st).length = fuel + 1 := by
  intro fuel
  induction fuel with
  | zero => intro x y path st h; rfl
  | succ f ih =>
      intro x y path st h
      simp only [walkAux] at h
      simp only [walkTrace]
      by_cases hend : x = ex ∧ y = ey
      · rw [if_pos hend] at h
        simp at h
      · rw [if_neg hend] at h
        rw [if_neg hend]
        rcases hf : findDir assign k x y dirOrder st with ⟨od, st'⟩
        rw [hf] at h
        cases od with
        | none => simp at h
        | some d =>
            dsimp only at h ⊢
            rw [List.length_cons, ih _ _ _ _ h]

/-- C10 (amended): the walk terminates only as long as it does not
revisit a cell: if the walk runs out of fuel while every visited cell is
distinct and inside the grid, the fuel was less than the number `N * M`
of grid cells — so with fuel `N * M` a non-terminating walk must revisit
a cell or leave the grid (and a revisit loops forever, as the concrete
two-cell cycle shows). -/
theorem c10_walk_trace_bound (assign : List Int) (k : Nat) (ex ey : Int) (p : Planner)
    (fuel : Nat) (x y : Int) (path : List Dir) (st : EncState)
    (hnone : (walkAux assign k ex ey fuel x y path st).1 = none)
    (hnd : (walkTrace assign k ex ey fuel x y st).Nodup)
    (hgrid : ∀ q ∈ walkTrace assign k ex ey fuel x y st, inGrid p q.1 q.2) :
    fuel < p.N * p.M := by
  have hlen := walkTrace_length_of_none assign k ex ey fuel x y path st hnone
  have hsub : (walkTrace assign k ex ey fuel x y st).toFinset ⊆
      (Finset.Ico (0 : Int) (p.N : Int)) ×ˢ (Finset.Ico (0 : Int) (p.M : Int)) := by
    intro q hq
    have hg := hgrid q (List.mem_toFinset.mp hq)
    simp only [Finset.mem_product, Finset.mem_Ico]
    exact ⟨⟨hg.1, hg.2.1⟩, ⟨hg.2.2.1, hg.2.2.2⟩⟩
  have hcard : (walkTrace assign k ex ey fuel x y st).toFinset.card =
      (walkTrace assign k ex ey fuel x y st).length :=
    List.toFinset_card_of_nodup hnd
  have hle := Finset.card_le_card hsub
  rw [hcard, hlen] at hle
  have hprod : ((Finset.Ico (0 : Int) (p.N : Int)) ×ˢ
      (Finset.Ico (0 : Int) (p.M : Int))).card = p.N * p.M := by
    rw [Finset.card_product, Int.card_Ico, Int.card_Ico]
    simp
  rw [hprod] at hle
  omega

/-- C10 witness: the bound applied at a concrete fuel-0 walk on a 1-by-1
grid. -/
theorem c10_witness : (0 : Nat) < 1 * 1 :=
  c10_walk_trace_bound [] 0 1 1 ⟨1, 1, 1, 1, 0, 0, [], [], []⟩ 0 0 0 [] ⟨0, [], []⟩
    rfl (by decide) (by decide)
